import Mathlib

/-!
Verification development for the Glipt scripting-language runtime
(scanner / compiler / stack VM in C). Each C function used by a claim is
embedded as an executable Lean definition translated clause-by-clause from
the source file named in its doc comment; theorems about those definitions
settle the specification claims.

Modelling conventions:
* a host `Value` (value.h, NaN-boxed 64-bit word) is modelled as the tagged
  union it encodes: nil, bool, IEEE double, heap object (string, list, map,
  ...).  Numbers are modelled as rationals; every concrete number exercised
  by a theorem below is an integer of magnitude below 2^31, a range on which
  IEEE double arithmetic and the C code's int conversions are exact.
* C strings are byte lists, modelled as `List Char`.
* `table.c` is not part of the sources provided (only `table.h` and the
  callers are), so the string-keyed hash table is modelled from the spec:
  an insertion-ordered association list with update-in-place on rebind,
  which realises the spec's observable contract (a string → Value map whose
  iteration order is the insertion order of the surviving keys).
-/

namespace Glipt

/-- Byte string of the host (`char*` contents). -/
abbrev GStr := List Char

/-- value.h, `Value` with the heap-object kinds of object.h inlined
structurally: nil / bool / number (NaN-boxed double, modelled as an exact
rational) / string / list / map. Function-like objects are not needed by
the claims below. -/
inductive GValue where
  | vnil
  | vbool (b : Bool)
  | vnum (q : ℚ)
  | vstr (s : GStr)
  | vlist (items : List GValue)
  | vmap (entries : List (GStr × GValue))
deriving Repr

/-- value.h, `isFalsey`: nil is falsey; a bool is falsey iff it is `false`
(`value == FALSE_VAL`); a number is falsey iff it compares equal to zero;
everything else (any heap object) is truthy. -/
def isFalsey : GValue → Bool
  | .vnil => true
  | .vbool b => !b
  | .vnum q => q == 0
  | _ => false

-- ---- Permission set (permission.c) ----

/-- permission.h, `PermissionType`. -/
inductive PermissionType where
  | permExec | permNet | permRead | permWrite | permEnv
deriving DecidableEq, Repr

/-- permission.h, `Permission`: one recorded `(kind, glob target)` pair. -/
structure Permission where
  type : PermissionType
  target : GStr
deriving Repr

/-- permission.h, `PermissionSet`: recorded entries plus the allow-all flag
(count/capacity of the C dynamic array are subsumed by the list). -/
structure PermissionSet where
  permissions : List Permission
  allowAll : Bool
deriving Repr

/-- permission.c, the trailing `while (*pattern == '*') pattern++;` of
`globMatch`. -/
def dropStars : GStr → GStr
  | c :: ps => if c = '*' then dropStars ps else c :: ps
  | [] => []

/-- permission.c, the inner loop of `globMatch` after a `'*'`:
`while (*text) { if (globMatch(pattern, text)) return true; text++; }` —
tries every nonempty suffix of the text against the rest-pattern matcher
`m` (the recursive `globMatch(pattern, ·)` call of the C code). -/
def globTry (m : GStr → Bool) : GStr → Bool
  | [] => false
  | tc :: ts => m (tc :: ts) || globTry m ts

/-- permission.c, `globMatch`, translated clause-by-clause: the main
`while (*pattern && *text)` loop runs while both are nonempty; on `'*'` the
pattern advances, an exhausted rest-pattern returns true, and otherwise the
inner loop `globTry` scans text suffixes; a non-star byte must match
literally.  When either side is exhausted, trailing stars are skipped and
both must be empty. -/
def globMatch : GStr → GStr → Bool
  | pc :: ps, tc :: ts =>
    if pc = '*' then
      match ps with
      | [] => true
      | p1 :: ps1 => globTry (globMatch (p1 :: ps1)) (tc :: ts)
    else if pc = tc then globMatch ps ts
    else false
  | p, t => dropStars p = [] && t = []

/-- permission.c, `hasPermission`: allow-all short-circuits; otherwise some
recorded entry of the same kind must glob-match the target (the C loop with
early return is `List.any`). -/
def hasPermission (set : PermissionSet) (type : PermissionType) (target : GStr) : Bool :=
  set.allowAll || set.permissions.any fun p => p.type == type && globMatch p.target target

/-- Glob semantics as the specification words it: `*` matches any (possibly
empty) run of bytes, every other pattern byte matches only an identical
byte. -/
inductive GlobSem : GStr → GStr → Prop where
  | nil : GlobSem [] []
  | ch {c : Char} {ps ts : GStr} : c ≠ '*' → GlobSem ps ts → GlobSem (c :: ps) (c :: ts)
  | starSkip {ps t : GStr} : GlobSem ps t → GlobSem ('*' :: ps) t
  | starEat {ps : GStr} {tc : Char} {ts : GStr} :
      GlobSem ('*' :: ps) ts → GlobSem ('*' :: ps) (tc :: ts)

-- ---- String-keyed table (spec-modelled) ----

/-- Modelled from the spec: `table.c` is absent from the provided sources
(only `table.h` and callers are present).  Spec §4.3 describes an
open-addressing string → Value hash table with tombstoned deletion, and §6
fixes the observable iteration order used by the JSON writer to the
insertion order of the underlying map.  The model is therefore an
insertion-ordered association list: rebinding updates in place, a fresh key
appends. -/
abbrev Table := List (GStr × GValue)

/-- Modelled from the spec: `tableGet` — lookup by key. -/
def tableGet : Table → GStr → Option GValue
  | [], _ => none
  | (k', v') :: rest, k => if k' = k then some v' else tableGet rest k

/-- Modelled from the spec: `tableSet` — update the existing entry in place
or append a fresh one (insertion order preserved). -/
def tableSet : Table → GStr → GValue → Table
  | [], k, v => [(k, v)]
  | (k', v') :: rest, k, v =>
    if k' = k then (k, v) :: rest else (k', v') :: tableSet rest k v

/-- Modelled from the spec: `tableDelete` — remove the entry (the C table
tombstones it; the surviving entries and their order are unchanged). -/
def tableDelete : Table → GStr → Table
  | [], _ => []
  | (k', v') :: rest, k => if k' = k then rest else (k', v') :: tableDelete rest k

-- ---- VM state (vm.h) and instruction steps (vm.c run) ----

/-- vm.h `HANDLER_MAX`. -/
def HANDLER_MAX : Nat := 64

/-- vm.h `ErrorHandler`: the bookmark recorded by `PUSH_HANDLER`.  The C
`handlerIP` pointer is modelled as a code offset; the C `stackTop` pointer
as the number of live stack slots it delimits. -/
structure ErrorHandler where
  handlerIP : Nat
  frameCount : Nat
  stackTopLen : Nat
deriving Repr, DecidableEq

/-- vm.h `VM`, restricted to the fields the claims below touch.  The value
stack is modelled head-is-top (`stackTop` is the list head; the C pointer
`vm->stackTop` corresponds to `stack.length`).  The handler array
`handlers[0..handlerCount)` is modelled as a list whose head is the TOP
handler `handlers[handlerCount-1]`; `handlerCount = handlers.length`. -/
structure VMState where
  stack : List GValue
  frameCount : Nat
  ip : Nat
  handlers : List ErrorHandler
  hasError : Bool
  currentError : GValue
  globals : Table
deriving Repr

/-- vm.c outcome of one dispatched instruction: either fall through to
`NEXT()` with the new state, or `runtimeError(...); return
INTERPRET_RUNTIME_ERROR` (an unconditional termination of `run`). -/
inductive StepResult where
  | next (s : VMState)
  | runtimeFault (msg : GStr) (s : VMState)
deriving Repr

/-- vm.c `runtimeError`: prints the message and stack trace, then resets
`stackTop` to the stack base and `frameCount` to 0.  It does NOT touch
`hasError` or `currentError`. -/
def runtimeError (s : VMState) : VMState :=
  { s with stack := [], frameCount := 0 }

/-- vm.c run(), case DIVIDE: both operands must be numbers, a zero divisor
is `runtimeError("Division by zero.")`, otherwise pop one slot and replace
the new top with the quotient. -/
def execDivide (s : VMState) : StepResult :=
  match s.stack with
  | b :: a :: rest =>
    match a, b with
    | .vnum aq, .vnum bq =>
      if bq = 0 then .runtimeFault ("Division by zero.".toList) (runtimeError s)
      else .next { s with stack := .vnum (aq / bq) :: rest }
    | _, _ => .runtimeFault ("Operands must be numbers.".toList) (runtimeError s)
  | _ => .runtimeFault ("Operands must be numbers.".toList) (runtimeError s)

/-- Modelled from the spec: one open-addressing slot of the globals table
(spec 4.3) — a live entry, or the tombstone `tableDelete` leaves behind
(the dead slot keeps its storage: its key is cleared, the stored value
stays in place; no resize happens on delete). -/
structure GSlot where
  key : Option GStr
  value : GValue
deriving Repr

/-- Modelled from the spec: the globals `Table` as the inline cache sees it
(table.h): the entries array and the `capacity` field the cache compares.
The C `Entry*` pointers into the array are modelled as slot indices, valid
exactly as long as the capacity is unchanged — the same condition the
cache checks. -/
structure GTable where
  capacity : Nat
  slots : List GSlot
deriving Repr

/-- Modelled from the spec: the probe of `tableGetEntry` — index of the
live slot holding the key, scanning past tombstones (spec 4.3). -/
def gtableFind : List GSlot → GStr → Nat → Option Nat
  | [], _, _ => none
  | sl :: rest, k, i =>
    match sl.key with
    | some k2 => if k2 = k then some i else gtableFind rest k (i + 1)
    | none => gtableFind rest k (i + 1)

/-- Modelled from the spec: `tableGetEntry` (table.h) — the live slot of
the key, `none` when the key is absent or tombstoned. -/
def gtableGetEntry (t : GTable) (k : GStr) : Option Nat :=
  gtableFind t.slots k 0

/-- Modelled from the spec: `tableGet` on the slot model. -/
def gtableGet (t : GTable) (k : GStr) : Option GValue :=
  match gtableGetEntry t k with
  | some i => some ((t.slots.getD i ⟨none, .vnil⟩).value)
  | none => none

/-- Modelled from the spec: `tableSet` on the slot model — overwrite the
live entry in place, else claim a fresh slot; when the insertion crosses
the 75% load factor the table grows (capacity changes, tombstones are
dropped by the rehash), which is what implicitly invalidates the inline
caches (spec 4.3 and 4.7). -/
def gtableSet (t : GTable) (k : GStr) (v : GValue) : GTable :=
  match gtableGetEntry t k with
  | some i => { t with slots := t.slots.set i ⟨some k, v⟩ }
  | none =>
    let slots := t.slots ++ [⟨some k, v⟩]
    if 3 * t.capacity < 4 * slots.length then
      { capacity := max 8 (2 * t.capacity),
        slots := slots.filter (fun sl => sl.key.isSome) }
    else { t with slots := slots }

/-- Modelled from the spec: `tableDelete` on the slot model — tombstone the
live entry: the key is cleared, the slot (and its stored value) stays, and
`capacity` is untouched (deletions never resize), so inline-cache entries
for this table remain valid. -/
def gtableDelete (t : GTable) (k : GStr) : GTable :=
  match gtableGetEntry t k with
  | some i =>
    { t with slots := t.slots.set i ⟨none, (t.slots.getD i ⟨none, .vnil⟩).value⟩ }
  | none => t

/-- vm.h `GlobalICSlot`: one direct-mapped inline-cache slot — the cached
name (`NULL` initially, hence `Option`), the cached `Entry*` (modelled as
the slot index), and the globals capacity observed when the cache was
filled. -/
structure GlobalICSlot where
  key : Option GStr
  entry : Nat
  tableCapacity : Nat
deriving Repr, DecidableEq

/-- The pieces of the VM that the GET_GLOBAL/SET_GLOBAL cases touch: the
value stack, the globals table, and the one cache slot
`vm->globalIC[name->hash & (GLOBAL_IC_SIZE-1)]` that the executed name
selects (distinct names may share a slot and evict each other; the model
tracks the selected slot). -/
structure GlobalsStep where
  stack : List GValue
  globals : GTable
  ic : GlobalICSlot
deriving Repr

/-- Outcome of a GET_GLOBAL dispatch: fall through to `NEXT()`, or
`runtimeError("Undefined variable …"); return INTERPRET_RUNTIME_ERROR`. -/
inductive GlobalsResult where
  | next (g : GlobalsStep)
  | undefinedFault (msg : GStr)
deriving Repr

/-- vm.c run(), case GET_GLOBAL (vm.c:1361-1380): on an inline-cache hit —
cached key equal to the name AND cached capacity equal to the current
globals capacity — the C pushes `ic->entry->value` straight through the
saved pointer, with no liveness check of that entry; only on a cache miss
does it probe the table, faulting with `Undefined variable` when the probe
fails and otherwise pushing the value and (re)filling the cache. -/
def execGetGlobal (g : GlobalsStep) (name : GStr) : GlobalsResult :=
  if g.ic.key = some name ∧ g.ic.tableCapacity = g.globals.capacity then
    .next { g with
      stack := (g.globals.slots.getD g.ic.entry ⟨none, .vnil⟩).value :: g.stack }
  else
    match gtableGetEntry g.globals name with
    | none =>
      .undefinedFault (("Undefined variable '".toList) ++ name ++ ("'.".toList))
    | some i =>
      .next { g with stack := (g.globals.slots.getD i ⟨none, .vnil⟩).value :: g.stack, ic := ⟨some name, i, g.globals.capacity⟩ }

/-- vm.c run(), case SET_GLOBAL (vm.c:1381-1397): peeks the stack top
(does not pop); on an inline-cache hit it assigns `ic->entry->value`
through the saved pointer — writing the slot even when it is a tombstone,
and never touching the slot's key; on a miss it `tableSet`s (inserting the
name when absent — there is no error path) and refills the cache from
`tableGetEntry`, whose probe after the set always succeeds (the `getD`
default is dead code, as is the ignored boolean in the C). -/
def execSetGlobal (g : GlobalsStep) (name : GStr) : GlobalsStep :=
  let value := g.stack.headD .vnil
  if g.ic.key = some name ∧ g.ic.tableCapacity = g.globals.capacity then
    { g with globals := { g.globals with
        slots := g.globals.slots.set g.ic.entry
          ⟨(g.globals.slots.getD g.ic.entry ⟨none, .vnil⟩).key, value⟩ } }
  else
    let t := gtableSet g.globals name value
    { g with globals := t, ic := ⟨some name, (gtableGetEntry t name).getD 0, t.capacity⟩ }

/-- vm.c run(), case PUSH_HANDLER: `ip` is the offset just past the 16-bit
operand; overflowing `HANDLER_MAX` is a runtime fault; otherwise record
{handler target = ip + offset, current frame count, current stack top}. -/
def execPushHandler (s : VMState) (offset : Nat) : StepResult :=
  if HANDLER_MAX ≤ s.handlers.length then
    .runtimeFault ("Too many nested error handlers.".toList) (runtimeError s)
  else
    .next { s with handlers :=
      ⟨s.ip + offset, s.frameCount, s.stack.length⟩ :: s.handlers }

/-- vm.c run(), case POP_HANDLER: drop the top handler if any. -/
def execPopHandler (s : VMState) : StepResult :=
  .next { s with handlers := s.handlers.tail }

/-- vm.c run(), case CALL, the `if (vm->hasError)` block with
`handlerCount > 0`: restore the TOP handler's frame count, stack top and
instruction pointer, push the pending error, clear the error flag.  Note
the handler list itself is left unchanged by this path (the C code never
decrements `handlerCount` here).  With no handler registered the state is
returned unchanged (that branch prints and terminates instead and is
modelled by `dispatchNoHandler`). -/
def dispatchRaisedError (s : VMState) : VMState :=
  match s.handlers with
  | [] => s
  | h :: _ =>
    { s with
      frameCount := h.frameCount
      stack := s.currentError :: s.stack.drop (s.stack.length - h.stackTopLen)
      ip := h.handlerIP
      hasError := false
      currentError := .vnil }

/-- vm.c run(), case CALL, the `if (vm->hasError)` block with no handler:
print the error's message field and terminate with a runtime-error
result. -/
def dispatchNoHandler (s : VMState) : StepResult :=
  .runtimeFault
    (match s.currentError with
     | .vmap entries =>
       match tableGet entries ("message".toList) with
       | some (.vstr m) => m
       | _ => ("Runtime error.".toList)
     | _ => ("Runtime error.".toList))
    (runtimeError { s with hasError := false, currentError := .vnil })

-- ---- Garbage-collector roots (memory.c) ----

/-- Heap object identity (the C object pointer). -/
abbrev ObjId := Nat

/-- The VM fields `markRoots` (memory.c) reads, plus the constant pool of
the function still being compiled (compiler.c / chunk.c `addConstant`
installs constants there while compilation is in progress).  Each field
lists the object ids directly referenced by that root area. -/
structure VMGCState where
  stackObjs : List ObjId
  frameClosures : List ObjId
  openUpvalues : List ObjId
  globalsObjs : List ObjId
  modulesObjs : List ObjId
  compilingConstants : List ObjId
deriving Repr

/-- memory.c `markRoots`: marks the value stack, the call-frame closures,
the open upvalues, the globals table and the module cache — and nothing
else (the trailing comment about compiler roots is not backed by any code;
nothing marks `compilingConstants`). -/
def markRoots (s : VMGCState) : List ObjId :=
  s.stackObjs ++ s.frameClosures ++ s.openUpvalues ++ s.globalsObjs ++ s.modulesObjs

/-- memory.c `markObject`: already-marked objects are skipped, fresh ones
are marked and pushed on the gray stack. -/
def markObjectM : List ObjId × List ObjId → ObjId → List ObjId × List ObjId :=
  fun (marked, gray) o => if o ∈ marked then (marked, gray) else (o :: marked, o :: gray)

/-- memory.c `traceReferences` + `blackenObject`: pop a gray object, mark
its outgoing references (`refs`), repeat until the gray stack is empty.
The fuel bounds the loop; any fuel at least `|heap|` suffices since every
iteration either shortens the gray stack or marks a fresh object. -/
def traceRefs (refs : ObjId → List ObjId) : Nat → List ObjId × List ObjId → List ObjId
  | 0, (marked, _) => marked
  | _ + 1, (marked, []) => marked
  | fuel + 1, (marked, g :: gray) =>
    traceRefs refs fuel ((refs g).foldl markObjectM (marked, gray))

/-- memory.c `collectGarbage` (mark + sweep, restricted to which objects
survive): mark from the roots, trace, then sweep the heap object list —
an unmarked object is freed, a marked one survives. -/
def gcSurvivors (s : VMGCState) (heap : List ObjId) (refs : ObjId → List ObjId)
    (fuel : Nat) : List ObjId :=
  let marked := traceRefs refs fuel ((markRoots s).foldl markObjectM ([], []))
  heap.filter (· ∈ marked)

/-- memory.c `sweep`: the freed complement of `gcSurvivors`. -/
def gcFreed (s : VMGCState) (heap : List ObjId) (refs : ObjId → List ObjId)
    (fuel : Nat) : List ObjId :=
  let marked := traceRefs refs fuel ((markRoots s).foldl markObjectM ([], []))
  heap.filter (· ∉ marked)

-- ---- Import globals diff (vm.c run, case IMPORT) ----

/-- vm.c run(), case IMPORT, the post-execution diff loop: walk the entries
of the globals table; an entry whose key is absent from the pre-execution
snapshot is `tableSet` into the fresh module map and `tableDelete`d from the
globals.  Deleting the entry under the cursor tombstones it (spec §4.3), so
the remaining entries are unaffected and the loop partitions the entry list:
snapshot keys stay in the globals, fresh keys move (in order) into the
module map. -/
def importCollect (snapshot : Table) : Table → Table × Table
  | [] => ([], [])
  | (k, v) :: rest =>
    let (g, m) := importCollect snapshot rest
    match tableGet snapshot k with
    | none => (g, (k, v) :: m)
    | some _ => ((k, v) :: g, m)

/-- vm.c run(), case IMPORT, the two binds after the diff: cache the module
map under the path and bind it in the globals under the binding name. -/
def importFinish (snapshot g' : Table) (modules : Table) (path modName : GStr) :
    Table × Table :=
  let gm := importCollect snapshot g'
  (tableSet gm.1 modName (.vmap gm.2), tableSet modules path (.vmap gm.2))

-- ---- Bytecode chunks and compiler fragments (chunk.c / compiler.c) ----

/-- opcode.h enum values for the opcodes the layout claims read. -/
def OP_CONSTANT : Nat := 0
/-- opcode.h `OP_NIL`. -/
def OP_NIL : Nat := 1
/-- opcode.h `OP_ADD`. -/
def OP_ADD : Nat := 4
/-- opcode.h `OP_LESS`. -/
def OP_LESS : Nat := 14
/-- opcode.h `OP_GET_LOCAL`. -/
def OP_GET_LOCAL : Nat := 17
/-- opcode.h `OP_SET_LOCAL`. -/
def OP_SET_LOCAL : Nat := 18
/-- opcode.h `OP_JUMP`. -/
def OP_JUMP : Nat := 24
/-- opcode.h `OP_JUMP_IF_FALSE`. -/
def OP_JUMP_IF_FALSE : Nat := 25
/-- opcode.h `OP_LOOP`. -/
def OP_LOOP : Nat := 26
/-- opcode.h `OP_INDEX_GET`. -/
def OP_INDEX_GET : Nat := 33
/-- opcode.h `OP_GET_PROPERTY`. -/
def OP_GET_PROPERTY : Nat := 35
/-- opcode.h `OP_POP`. -/
def OP_POP : Nat := 38
/-- opcode.h `OP_PUSH_HANDLER`. -/
def OP_PUSH_HANDLER : Nat := 40
/-- opcode.h `OP_POP_HANDLER`. -/
def OP_POP_HANDLER : Nat := 41

/-- chunk.c `Chunk`, reduced to the `code` byte array (the line table and
constant pool are not read by the layout claims). -/
structure Chunk where
  code : List Nat
deriving Repr

/-- chunk.c `writeChunk`: append one byte. -/
def writeChunk (c : Chunk) (b : Nat) : Chunk := ⟨c.code ++ [b]⟩

/-- compiler.c `emitByte` (the source-line argument is dropped). -/
def emitByte (c : Chunk) (b : Nat) : Chunk := writeChunk c b

/-- compiler.c `emitBytes`. -/
def emitBytes (c : Chunk) (b1 b2 : Nat) : Chunk := emitByte (emitByte c b1) b2

/-- compiler.c `emitJump`: the instruction plus two 0xff placeholder bytes;
returns `count - 2`, the operand offset to patch later. -/
def emitJump (c : Chunk) (instr : Nat) : Chunk × Nat :=
  let c3 := emitByte (emitByte (emitByte c instr) 0xff) 0xff
  (c3, c3.code.length - 2)

/-- compiler.c `patchJump`: write `count - offset - 2` big-endian into the
two placeholder bytes; a jump wider than 16 bits is reported and left
unpatched. -/
def patchJump (c : Chunk) (offset : Nat) : Chunk :=
  let jump := c.code.length - offset - 2
  if 65535 < jump then c
  else ⟨(c.code.set offset ((jump >>> 8) % 256)).set (offset + 1) (jump % 256)⟩

/-- compiler.c `emitLoop`: OP_LOOP plus a backward 16-bit offset measured
from the end of the operand back to `loopStart` (an over-wide offset is
reported but the low bytes are emitted regardless, as in the C). -/
def emitLoop (c : Chunk) (loopStart : Nat) : Chunk :=
  let c1 := emitByte c OP_LOOP
  let offset := c1.code.length - loopStart + 2
  emitByte (emitByte c1 ((offset >>> 8) % 256)) (offset % 256)

/-- vm.c `READ_SHORT`: two big-endian code bytes. -/
def readShort (code : List Nat) (ip : Nat) : Nat :=
  (code.getD ip 0) * 256 + code.getD (ip + 1) 0

/-- vm.c run(), case LOOP: with `ip` at the OP_LOOP opcode, the VM reads
the opcode and the 16-bit operand (ip advances by 3) and then subtracts the
offset.  Nothing else changes: the stack — and with it every local slot —
is untouched. -/
def execLoop (code : List Nat) (s : VMState) : VMState :=
  { s with ip := s.ip + 3 - readShort code (s.ip + 1) }

/-- Result layout of the on-failure lowering (compiler.c
`compileStatements`, NODE_ON_FAILURE branch). -/
structure OnFailureLayout where
  chunk : Chunk
  pushSite : Nat
  popHandlerOff : Nat
  handlerEntry : Nat
deriving Repr

/-- compiler.c `compileStatements`, NODE_ON_FAILURE branch, with the
compiled remaining statements (`prot`) and the compiled handler block
including its scope-exit pop (`body`) abstracted as byte lists: emit
PUSH_HANDLER with a placeholder, the protected statements, POP_HANDLER, a
JUMP over the handler, patch the PUSH_HANDLER operand to the current
offset (the handler entry, where the `error` local is bound), the handler
body, and patch the end jump. -/
def compileOnFailure (c0 : Chunk) (prot body : List Nat) : OnFailureLayout :=
  let hj := emitJump c0 OP_PUSH_HANDLER
  let c2 : Chunk := ⟨hj.1.code ++ prot⟩
  let popOff := c2.code.length
  let c3 := emitByte c2 OP_POP_HANDLER
  let ej := emitJump c3 OP_JUMP
  let entry := ej.1.code.length
  let c5 := patchJump ej.1 hj.2
  let c6 : Chunk := ⟨c5.code ++ body⟩
  let c7 := patchJump c6 ej.2
  ⟨c7, hj.2, popOff, entry⟩

/-- Result layout of the for-loop lowering (compiler.c `compileFor`). -/
structure ForLayout where
  chunk : Chunk
  loopStart : Nat
  continueSite : Nat
  incrStart : Nat
deriving Repr

/-- compiler.c `compileFor`, with the iterable expression and the body
abstracted as byte lists and one `continue` statement compiled between
`bodyPre` and `bodyPost` (compiler.c NODE_CONTINUE emits
`emitLoop(compiler, compiler->loopStart)` at the current offset): three
hidden locals (iterable, hidden index, loop variable), `loopStart` recorded
BEFORE the `index < iterable.length` condition, the per-iteration
`x = iterable[index]` prologue, the body, then the hidden-index increment
`index = index + 1` emitted AFTER the body, the backward loop jump, and the
exit patch. -/
def compileForWithContinue (c0 : Chunk) (iterCode : List Nat)
    (iterSlot idxSlot varSlot constZero constOne lengthConst : Nat)
    (bodyPre bodyPost : List Nat) : ForLayout :=
  let c1 : Chunk := ⟨c0.code ++ iterCode⟩
  let c2 := emitBytes c1 OP_CONSTANT constZero
  let c3 := emitByte c2 OP_NIL
  let loopStart := c3.code.length
  let c4 := emitBytes c3 OP_GET_LOCAL idxSlot
  let c5 := emitBytes c4 OP_GET_LOCAL iterSlot
  let c6 := emitBytes c5 OP_GET_PROPERTY lengthConst
  let c7 := emitByte c6 OP_LESS
  let xj := emitJump c7 OP_JUMP_IF_FALSE
  let c9 := emitByte xj.1 OP_POP
  let c10 := emitBytes c9 OP_GET_LOCAL iterSlot
  let c11 := emitBytes c10 OP_GET_LOCAL idxSlot
  let c12 := emitByte c11 OP_INDEX_GET
  let c13 := emitBytes c12 OP_SET_LOCAL varSlot
  let c14 := emitByte c13 OP_POP
  let c15 : Chunk := ⟨c14.code ++ bodyPre⟩
  let contSite := c15.code.length
  let c16 := emitLoop c15 loopStart
  let c17 : Chunk := ⟨c16.code ++ bodyPost⟩
  let incrStart := c17.code.length
  let c18 := emitBytes c17 OP_GET_LOCAL idxSlot
  let c19 := emitBytes c18 OP_CONSTANT constOne
  let c20 := emitByte c19 OP_ADD
  let c21 := emitBytes c20 OP_SET_LOCAL idxSlot
  let c22 := emitByte c21 OP_POP
  let c23 := emitLoop c22 loopStart
  let c24 := patchJump c23 xj.2
  let c25 := emitByte c24 OP_POP
  ⟨c25, loopStart, contSite, incrStart⟩

-- ---- JSON (dataformat.c) ----

/-- dataformat.c `jsonSkipWhitespace` character class. -/
def jsonIsWs (c : Char) : Bool := c = ' ' || c = '\t' || c = '\r' || c = '\n'

/-- dataformat.c `jsonSkipWhitespace`: drop the leading whitespace run. -/
def jsonSkipWs : List Char → List Char
  | c :: rest => if jsonIsWs c then jsonSkipWs rest else c :: rest
  | [] => []

/-- dataformat.c `jsonParseString`, first loop: scan to the closing quote,
stepping over a backslash and the byte after it; returns the raw content
(escapes included) and the input after the closing quote, or none when the
string is unterminated. -/
def jsonScanString : List Char → Option (List Char × List Char)
  | [] => none
  | c :: rest =>
    if c = '"' then some ([], rest)
    else if c = '\\' then
      match rest with
      | [] => none
      | d :: rest2 => (jsonScanString rest2).map (fun p => ('\\' :: d :: p.1, p.2))
    else (jsonScanString rest).map (fun p => (c :: p.1, p.2))

/-- dataformat.c `jsonParseString`, escape switch: `b f n r t` map to their
control bytes; quote, backslash, slash and every other byte map to
themselves (the C default case). -/
def jsonEscapeChar (d : Char) : Char :=
  if d = 'b' then Char.ofNat 8
  else if d = 'f' then Char.ofNat 12
  else if d = 'n' then Char.ofNat 10
  else if d = 'r' then Char.ofNat 13
  else if d = 't' then Char.ofNat 9
  else d

/-- dataformat.c `jsonParseString`, second loop: rewrite the escape pairs
(a trailing lone backslash is copied as itself, as in the C `i + 1 < end`
guard). -/
def jsonUnescape : List Char → List Char
  | [] => []
  | '\\' :: d :: rest => jsonEscapeChar d :: jsonUnescape rest
  | '\\' :: [] => ['\\']
  | c :: rest => c :: jsonUnescape rest

/-- dataformat.c `jsonParseString`: expect the opening quote, scan the
content, and run the escape pass only when an escape was seen. -/
def jsonParseStr (s : List Char) : Option (GStr × List Char) :=
  match s with
  | '"' :: rest =>
    (jsonScanString rest).map (fun p =>
      ((if p.1.contains '\\' then jsonUnescape p.1 else p.1), p.2))
  | _ => none

/-- Decimal value of a digit run (the core of `strtod` on the integer
tokens the claims exercise). -/
def digitsToNat (ds : List Char) : Nat :=
  ds.foldl (fun a c => a * 10 + (c.toNat - 48)) 0

/-- dataformat.c `jsonParseNumber`, token scan: optional minus, digits,
optional fraction, optional exponent. -/
def jsonScanNumber (s : List Char) : List Char × List Char :=
  let p1 : List Char × List Char :=
    match s with
    | '-' :: r => (['-'], r)
    | _ => ([], s)
  let d1 := p1.2.span Char.isDigit
  let pf : List Char × List Char :=
    match d1.2 with
    | '.' :: r => let d2 := r.span Char.isDigit; ('.' :: d2.1, d2.2)
    | _ => ([], d1.2)
  let pe : List Char × List Char :=
    match pf.2 with
    | e :: r =>
      if e = 'e' || e = 'E' then
        match r with
        | c :: r2 =>
          if c = '+' || c = '-' then
            let d3 := r2.span Char.isDigit
            (e :: c :: d3.1, d3.2)
          else
            let d3 := r.span Char.isDigit
            (e :: d3.1, d3.2)
        | [] => ([e], r)
      else ([], pf.2)
    | [] => ([], pf.2)
  (p1.1 ++ d1.1 ++ pf.1 ++ pe.1, pe.2)

/-- Exact value of a numeric token (dataformat.c feeds the token to
`strtod`; `strtod` rounds to the nearest IEEE double, which is exact on the
integer tokens of magnitude below 2^53 that the claims exercise — the model
keeps the exact rational). -/
def ratOfNumToken (t : List Char) : ℚ :=
  let p1 : Bool × List Char :=
    match t with
    | '-' :: r => (true, r)
    | _ => (false, t)
  let d1 := p1.2.span Char.isDigit
  let pf : List Char × List Char :=
    match d1.2 with
    | '.' :: r => (r.span Char.isDigit).1.append [] |> fun f => (f, (r.span Char.isDigit).2)
    | _ => ([], d1.2)
  let e : Int :=
    match pf.2 with
    | c :: r =>
      if c = 'e' || c = 'E' then
        match r with
        | '-' :: r2 => -(digitsToNat (r2.takeWhile Char.isDigit) : Int)
        | '+' :: r2 => (digitsToNat (r2.takeWhile Char.isDigit) : Int)
        | _ => (digitsToNat (r.takeWhile Char.isDigit) : Int)
      else 0
    | [] => 0
  let mag : ℚ := (digitsToNat d1.1 : ℚ) + (digitsToNat pf.1 : ℚ) / ((10 : ℚ) ^ pf.1.length)
  (if p1.1 then -mag else mag) * (10 : ℚ) ^ e

/-- dataformat.c `jsonParseNumber`: scan the token (truncated to 63 bytes
as by the C stack buffer) and convert. -/
def jsonParseNumber (s : List Char) : GValue × List Char :=
  let p := jsonScanNumber s
  (.vnum (ratOfNumToken (p.1.take 63)), p.2)

mutual

/-- dataformat.c `jsonParseValue` / `jsonParseArray` / `jsonParseObject`,
translated with an explicit fuel (the C recursion is bounded by the input:
every recursive call is preceded by consuming at least one byte; the
wrapper `parseJSON` passes ample fuel).  Dispatch order as in the C: string,
number, array, object, then the three literals, else error. -/
def jsonParseValueF : Nat → List Char → Option (GValue × List Char)
  | 0, _ => none
  | fuel + 1, s =>
    let s1 := jsonSkipWs s
    match s1 with
    | [] => none
    | c :: _ =>
      if c = '"' then (jsonParseStr s1).map (fun p => (.vstr p.1, p.2))
      else if c = '-' || c.isDigit then some (jsonParseNumber s1)
      else if c = '[' then jsonParseArrayF fuel s1.tail
      else if c = '{' then jsonParseObjectF fuel s1.tail
      else if ("true".toList).isPrefixOf s1 then some (.vbool true, s1.drop 4)
      else if ("false".toList).isPrefixOf s1 then some (.vbool false, s1.drop 5)
      else if ("null".toList).isPrefixOf s1 then some (.vnil, s1.drop 4)
      else none

/-- dataformat.c `jsonParseArray` (input after the `[`): empty array or the
element loop. -/
def jsonParseArrayF : Nat → List Char → Option (GValue × List Char)
  | 0, _ => none
  | fuel + 1, s =>
    let s1 := jsonSkipWs s
    match s1 with
    | ']' :: r => some (.vlist [], r)
    | _ => jsonParseItemsF fuel [] s1

/-- dataformat.c `jsonParseArray`, the `do … while (jsonMatch(','))` body
plus the final `]` match, with the elements accumulated in order. -/
def jsonParseItemsF : Nat → List GValue → List Char → Option (GValue × List Char)
  | 0, _, _ => none
  | fuel + 1, acc, s =>
    match jsonParseValueF fuel (jsonSkipWs s) with
    | none => none
    | some (v, r) =>
      match jsonSkipWs r with
      | ',' :: r2 => jsonParseItemsF fuel (acc ++ [v]) r2
      | ']' :: r2 => some (.vlist (acc ++ [v]), r2)
      | _ => none

/-- dataformat.c `jsonParseObject` (input after the `{`). -/
def jsonParseObjectF : Nat → List Char → Option (GValue × List Char)
  | 0, _ => none
  | fuel + 1, s =>
    let s1 := jsonSkipWs s
    match s1 with
    | '}' :: r => some (.vmap [], r)
    | _ => jsonParseMembersF fuel [] s1

/-- dataformat.c `jsonParseObject`, the member loop: key string, `:`,
value, `tableSet` into the fresh map, repeat on `,`, close on `}`. -/
def jsonParseMembersF : Nat → Table → List Char → Option (GValue × List Char)
  | 0, _, _ => none
  | fuel + 1, acc, s =>
    match jsonParseStr (jsonSkipWs s) with
    | none => none
    | some (k, r) =>
      match jsonSkipWs r with
      | ':' :: r2 =>
        match jsonParseValueF fuel (jsonSkipWs r2) with
        | none => none
        | some (v, r3) =>
          match jsonSkipWs r3 with
          | ',' :: r4 => jsonParseMembersF fuel (tableSet acc k v) r4
          | '}' :: r4 => some (.vmap (tableSet acc k v), r4)
          | _ => none
      | _ => none

end

/-- dataformat.c `parseJSON`: parse one value (errors yield nil; input
after the value is ignored, as in the C which never checks `pos` at the
end).  Fuel `3·|s| + 1` covers the C recursion, which consumes at least one
byte per descent. -/
def parseJSON (s : List Char) : GValue :=
  match jsonParseValueF (3 * s.length + 1) s with
  | some p => p.1
  | none => .vnil

/-- Decimal digits of `n` (C `snprintf "%d"` for nonnegative values), with
structural fuel (`n + 1` suffices since the argument divides by 10 each
step). -/
def natToCharsF : Nat → Nat → List Char
  | 0, _ => []
  | fuel + 1, n =>
    if n < 10 then [Char.ofNat (48 + n)]
    else natToCharsF fuel (n / 10) ++ [Char.ofNat (48 + n % 10)]

/-- Decimal digits of `n`. -/
def natToChars (n : Nat) : List Char := natToCharsF (n + 1) n

/-- C `snprintf("%d", i)`: minus sign and decimal digits. -/
def intToChars (i : Int) : List Char :=
  if i < 0 then '-' :: natToChars (-i).toNat else natToChars i.toNat

/-- dataformat.c `jsonWriteValue`, number case.  The C writes `%d` of
`(int)num` when `num == (int)num && -1e15 ≤ num ≤ 1e15`, else `%g`.  The
model covers the branch where the `int` cast is well defined (an integer
value of magnitude below 2^31, automatically inside the 1e15 guard); the
`%g` fallback and the out-of-`int`-range casts are host floating-point
behaviour outside the model, returned as `none` and never exercised by the
claims. -/
def jsonWriteNumber (q : ℚ) : Option (List Char) :=
  if q.den = 1 ∧ -(2 ^ 31 : Int) ≤ q.num ∧ q.num < 2 ^ 31 then some (intToChars q.num)
  else none

/-- dataformat.c `jsonWriteString`, per-byte output: the seven escaped
bytes, everything else raw. -/
def jsonEscapeOut (c : Char) : List Char :=
  if c = '"' then ['\\', '"']
  else if c = '\\' then ['\\', '\\']
  else if c = Char.ofNat 8 then ['\\', 'b']
  else if c = Char.ofNat 12 then ['\\', 'f']
  else if c = Char.ofNat 10 then ['\\', 'n']
  else if c = Char.ofNat 13 then ['\\', 'r']
  else if c = Char.ofNat 9 then ['\\', 't']
  else [c]

/-- dataformat.c `jsonWriteString`: quote, escaped bytes, quote. -/
def jsonWriteStringChars (s : GStr) : List Char :=
  '"' :: (s.flatMap jsonEscapeOut ++ ['"'])

mutual

/-- dataformat.c `jsonWriteValue`: null/true/false literals, the number
branch, escaped strings, `[`-separated-`]` lists, `{`-separated-`}` maps
whose entries are written in the table's iteration order (spec §6:
insertion order).  `none` only for the un-modelled `%g` number branch. -/
def jsonWriteValue : GValue → Option (List Char)
  | .vnil => some ("null".toList)
  | .vbool b => some (if b then "true".toList else "false".toList)
  | .vnum q => jsonWriteNumber q
  | .vstr s => some (jsonWriteStringChars s)
  | .vlist items => (jsonWriteItems items).map (fun cs => '[' :: (cs ++ [']']))
  | .vmap entries => (jsonWriteMembers entries).map (fun cs => '{' :: (cs ++ ['}']))

/-- dataformat.c `jsonWriteValue`, list loop (comma before every element
but the first). -/
def jsonWriteItems : List GValue → Option (List Char)
  | [] => some []
  | v :: rest => do
    let c ← jsonWriteValue v
    let r ← jsonWriteItemsTail rest
    pure (c ++ r)

/-- Elements after the first, each preceded by a comma. -/
def jsonWriteItemsTail : List GValue → Option (List Char)
  | [] => some []
  | v :: rest => do
    let c ← jsonWriteValue v
    let r ← jsonWriteItemsTail rest
    pure (',' :: (c ++ r))

/-- dataformat.c `jsonWriteValue`, map loop: escaped key, colon, value. -/
def jsonWriteMembers : List (GStr × GValue) → Option (List Char)
  | [] => some []
  | (k, v) :: rest => do
    let c ← jsonWriteValue v
    let r ← jsonWriteMembersTail rest
    pure (jsonWriteStringChars k ++ ':' :: (c ++ r))

/-- Members after the first, each preceded by a comma. -/
def jsonWriteMembersTail : List (GStr × GValue) → Option (List Char)
  | [] => some []
  | (k, v) :: rest => do
    let c ← jsonWriteValue v
    let r ← jsonWriteMembersTail rest
    pure (',' :: (jsonWriteStringChars k ++ ':' :: (c ++ r)))

end

/-- dataformat.c `toJSON` restricted to the modelled branches (`none` only
when the `%g` branch would run). -/
def toJSONChars (v : GValue) : Option (List Char) := jsonWriteValue v

/-- Serializer-canonical values: the fragment of {null, bool, number,
string, list, map} values whose canonical text the round trip preserves —
numbers are integer-valued with magnitude below 2^31 (the writer's exact
`%d` branch), map keys are distinct.  Strings are unrestricted: the writer
chooses the escapes. -/
inductive JCanon : GValue → Prop where
  | nil : JCanon .vnil
  | bool (b : Bool) : JCanon (.vbool b)
  | num (n : Int) : -(2 ^ 31) ≤ n → n < 2 ^ 31 → JCanon (.vnum (n : ℚ))
  | str (s : GStr) : JCanon (.vstr s)
  | list {items : List GValue} : (∀ v ∈ items, JCanon v) → JCanon (.vlist items)
  | map {entries : List (GStr × GValue)} : (∀ kv ∈ entries, JCanon kv.2) →
      (entries.map Prod.fst).Nodup → JCanon (.vmap entries)

mutual

/-- Fuel adequate for `jsonParseValueF` on the canonical text of a value. -/
def jfuel : GValue → Nat
  | .vlist items => 2 + jfuelItems items
  | .vmap entries => 2 + jfuelMembers entries
  | _ => 1

/-- Fuel for the element loop. -/
def jfuelItems : List GValue → Nat
  | [] => 1
  | v :: rest => 1 + jfuel v + jfuelItems rest

/-- Fuel for the member loop. -/
def jfuelMembers : List (GStr × GValue) → Nat
  | [] => 1
  | kv :: rest => 1 + jfuel kv.2 + jfuelMembers rest

end

/-- Characters that may legitimately follow a complete JSON value in the
canonical text: a separator, a closer, or end of input. -/
def jsonSep (rest : List Char) : Prop :=
  ∀ c, rest.head? = some c → (c = ',' ∨ c = ']' ∨ c = '}')

/-- Round-trip property of a single value: the parser recovers the value
and the following input from the writer's text, under any adequate fuel and
any canonical continuation. -/
def jRT (v : GValue) : Prop :=
  ∀ out, jsonWriteValue v = some out →
  ∀ fuel, jfuel v ≤ fuel →
  ∀ rest, jsonSep rest →
  jsonParseValueF fuel (out ++ rest) = some (v, rest)

/-- Fuel-adequacy property: the canonical fuel is dominated by the length
of the written text. -/
def jQ (v : GValue) : Prop :=
  ∀ out, jsonWriteValue v = some out → jfuel v + 1 ≤ 3 * out.length

-- ---- Lemmas: the C glob matcher decides GlobSem ----

theorem dropStars_eq_nil_iff (p : GStr) : dropStars p = [] ↔ ∀ c ∈ p, c = '*' := by
  induction p with
  | nil => simp [dropStars]
  | cons c ps ih =>
    by_cases h : c = '*'
    · subst h; simpa [dropStars] using ih
    · show (if c = '*' then dropStars ps else c :: ps) = [] ↔ _
      rw [if_neg h]
      constructor
      · intro hc; exact absurd hc (by simp)
      · intro hall; exact absurd (hall c (by simp)) h

theorem globMatch_nil_right (p : GStr) : globMatch p [] = (dropStars p = [] : Bool) := by
  cases p <;> simp [globMatch]

theorem globMatch_nil_left (t : GStr) : globMatch [] t = (t = [] : Bool) := by
  cases t <;> simp [globMatch, dropStars]

theorem gm_star_nil (tc : Char) (ts : GStr) : globMatch ['*'] (tc :: ts) = true := rfl

theorem gm_star_cons (p1 : Char) (ps1 : GStr) (tc : Char) (ts : GStr) :
    globMatch ('*' :: p1 :: ps1) (tc :: ts) = globTry (globMatch (p1 :: ps1)) (tc :: ts) := rfl

theorem gm_lit {pc : Char} (h : pc ≠ '*') (ps : GStr) (tc : Char) (ts : GStr) :
    globMatch (pc :: ps) (tc :: ts) = if pc = tc then globMatch ps ts else false := by
  rw [globMatch.eq_def]
  simp [h]

theorem globTry_cons (m : GStr → Bool) (tc : Char) (ts : GStr) :
    globTry m (tc :: ts) = (m (tc :: ts) || globTry m ts) := rfl

theorem GlobSem.allstars {p : GStr} (h : ∀ c ∈ p, c = '*') : GlobSem p [] := by
  induction p with
  | nil => exact .nil
  | cons c ps ih =>
    have hc := h c (by simp)
    subst hc
    exact .starSkip (ih fun c hc => h c (by simp [hc]))

theorem GlobSem.star_append {ps : GStr} (w : GStr) {u : GStr} (h : GlobSem ps u) :
    GlobSem ('*' :: ps) (w ++ u) := by
  induction w with
  | nil => exact .starSkip h
  | cons a w ih => exact .starEat ih

theorem globMatch_allstars :
    ∀ p : GStr, (∀ c ∈ p, c = '*') → ∀ t : GStr, p ≠ [] ∨ t = [] → globMatch p t = true := by
  intro p
  induction p with
  | nil =>
    rintro _ t (h | rfl)
    · exact absurd rfl h
    · simp [globMatch, dropStars]
  | cons c ps ih =>
    intro hall t _
    have hc : c = '*' := hall c (by simp)
    subst hc
    have hps : ∀ c ∈ ps, c = '*' := fun c hc => hall c (by simp [hc])
    cases t with
    | nil =>
      rw [globMatch_nil_right]
      simp [dropStars, (dropStars_eq_nil_iff ps).mpr hps]
    | cons tc ts =>
      cases ps with
      | nil => exact gm_star_nil tc ts
      | cons p1 ps1 =>
        rw [gm_star_cons, globTry_cons]
        have h1 := ih hps (tc :: ts) (Or.inl (by simp))
        simp [h1]

theorem globTry_eq_true_iff (m : GStr → Bool) (t : GStr) :
    globTry m t = true ↔ ∃ u, u <:+ t ∧ u ≠ [] ∧ m u = true := by
  induction t with
  | nil => simp [globTry]
  | cons tc ts ih =>
    rw [globTry_cons]
    constructor
    · intro h
      rcases Bool.or_eq_true_iff.mp h with h | h
      · exact ⟨tc :: ts, List.suffix_rfl, by simp, h⟩
      · rcases ih.mp h with ⟨u, hsuf, hne, hm⟩
        exact ⟨u, hsuf.trans (List.suffix_cons tc ts), hne, hm⟩
    · rintro ⟨u, hsuf, hne, hm⟩
      rcases List.suffix_cons_iff.mp hsuf with rfl | hsuf
      · simp [hm]
      · exact Bool.or_eq_true_iff.mpr (Or.inr (ih.mpr ⟨u, hsuf, hne, hm⟩))

theorem globMatch_sound :
    ∀ n, ∀ p t : GStr, p.length + t.length ≤ n → globMatch p t = true → GlobSem p t := by
  intro n
  induction n with
  | zero =>
    intro p t hlen hm
    have hp : p = [] := by cases p <;> simp_all
    have ht : t = [] := by cases t <;> simp_all
    subst hp; subst ht
    exact .nil
  | succ n ih =>
    intro p t hlen hm
    cases p with
    | nil =>
      rw [globMatch_nil_left] at hm
      simp only [decide_eq_true_eq] at hm
      subst hm
      exact .nil
    | cons pc ps =>
      cases t with
      | nil =>
        rw [globMatch_nil_right] at hm
        simp only [decide_eq_true_eq] at hm
        exact GlobSem.allstars ((dropStars_eq_nil_iff _).mp hm)
      | cons tc ts =>
        by_cases hstar : pc = '*'
        · subst hstar
          cases ps with
          | nil =>
            have h0 : GlobSem ('*' :: ([] : GStr)) ((tc :: ts) ++ ([] : GStr)) :=
              GlobSem.star_append (tc :: ts) .nil
            simpa using h0
          | cons p1 ps1 =>
            rw [gm_star_cons] at hm
            rcases (globTry_eq_true_iff _ _).mp hm with ⟨u, hsuf, hne, hmu⟩
            rcases hsuf with ⟨w, hw⟩
            have hu : u.length ≤ ts.length + 1 := by
              have hl := congrArg List.length hw
              simp at hl
              omega
            have hlen' : (p1 :: ps1).length + u.length ≤ n := by
              simp at hlen ⊢
              omega
            rw [← hw]
            exact GlobSem.star_append w (ih _ _ hlen' hmu)
        · rw [gm_lit hstar] at hm
          by_cases heq : pc = tc
          · subst heq
            rw [if_pos rfl] at hm
            exact GlobSem.ch hstar (ih ps ts (by simp at hlen ⊢; omega) hm)
          · rw [if_neg heq] at hm
            exact absurd hm (by simp)

theorem globMatch_complete {p t : GStr} (h : GlobSem p t) : globMatch p t = true := by
  induction h with
  | nil => simp [globMatch, dropStars]
  | ch hne _ ih =>
    rw [gm_lit hne, if_pos rfl]
    exact ih
  | starSkip h ih =>
    rename_i ps t
    cases t with
    | nil =>
      rw [globMatch_nil_right] at ih ⊢
      simp only [decide_eq_true_eq] at ih ⊢
      simp [dropStars, ih]
    | cons tc ts =>
      cases ps with
      | nil => exact gm_star_nil tc ts
      | cons p1 ps1 =>
        rw [gm_star_cons, globTry_cons]
        simp [ih]
  | starEat h ih =>
    rename_i ps tc ts
    cases ps with
    | nil => exact gm_star_nil tc ts
    | cons p1 ps1 =>
      rw [gm_star_cons, globTry_cons]
      cases ts with
      | nil =>
        rw [globMatch_nil_right] at ih
        simp only [decide_eq_true_eq] at ih
        have hall : ∀ c ∈ p1 :: ps1, c = '*' := by
          have h2 := (dropStars_eq_nil_iff _).mp ih
          intro c hc
          exact h2 c (by simp [hc])
        have h3 := globMatch_allstars (p1 :: ps1) hall (tc :: []) (Or.inl (by simp))
        simp [h3]
      | cons tc' ts' =>
        rw [gm_star_cons, globTry_cons] at ih
        rw [globTry_cons]
        simp at ih ⊢
        tauto

theorem globMatch_iff_sem (p t : GStr) : globMatch p t = true ↔ GlobSem p t :=
  ⟨globMatch_sound (p.length + t.length) p t le_rfl, globMatch_complete⟩

-- ---- Table lemmas (spec-modelled association list) ----

/-- Keys of a table in iteration order. -/
def tableKeys (t : Table) : List GStr := t.map Prod.fst

theorem tableGet_set_self (t : Table) (k : GStr) (v : GValue) :
    tableGet (tableSet t k v) k = some v := by
  induction t with
  | nil => simp [tableSet, tableGet]
  | cons kv rest ih =>
    obtain ⟨k', v'⟩ := kv
    by_cases h : k' = k
    · subst h; simp [tableSet, tableGet]
    · simp [tableSet, tableGet, h, ih]

theorem tableGet_set_other (t : Table) {k k' : GStr} (h : k' ≠ k) (v : GValue) :
    tableGet (tableSet t k v) k' = tableGet t k' := by
  induction t with
  | nil => simp [tableSet, tableGet, Ne.symm h]
  | cons kv rest ih =>
    obtain ⟨k0, v0⟩ := kv
    by_cases h0 : k0 = k
    · subst h0
      simp [tableSet, tableGet, Ne.symm h]
    · simp [tableSet, tableGet, h0, ih]

theorem tableGet_delete_other (t : Table) {k k' : GStr} (h : k' ≠ k) :
    tableGet (tableDelete t k) k' = tableGet t k' := by
  induction t with
  | nil => simp [tableDelete]
  | cons kv rest ih =>
    obtain ⟨k0, v0⟩ := kv
    by_cases h0 : k0 = k
    · subst h0
      simp [tableDelete, tableGet, Ne.symm h]
    · simp [tableDelete, tableGet, h0, ih]

-- ---- Import diff lemmas ----

theorem importCollect_moduleMap (snapshot : Table) (g : Table) (k : GStr) (v : GValue) :
    tableGet (importCollect snapshot g).2 k = some v ↔
      tableGet g k = some v ∧ tableGet snapshot k = none := by
  induction g with
  | nil => simp [importCollect, tableGet]
  | cons kv rest ih =>
    obtain ⟨k0, v0⟩ := kv
    rcases hsnap : tableGet snapshot k0 with _ | w
    · by_cases hk : k0 = k
      · subst hk
        simp [importCollect, hsnap, tableGet]
      · simp [importCollect, hsnap, tableGet, hk, ih]
    · by_cases hk : k0 = k
      · subst hk
        simp [importCollect, hsnap, tableGet, ih]
      · simp [importCollect, hsnap, tableGet, hk, ih]

theorem importCollect_globals_kept (snapshot : Table) (g : Table) (k : GStr)
    (hk : tableGet snapshot k ≠ none) :
    tableGet (importCollect snapshot g).1 k = tableGet g k := by
  induction g with
  | nil => simp [importCollect]
  | cons kv rest ih =>
    obtain ⟨k0, v0⟩ := kv
    rcases hsnap : tableGet snapshot k0 with _ | w
    · by_cases h0 : k0 = k
      · subst h0; exact absurd hsnap hk
      · simp [importCollect, hsnap, tableGet, h0, ih]
    · by_cases h0 : k0 = k
      · subst h0; simp [importCollect, hsnap, tableGet]
      · simp [importCollect, hsnap, tableGet, h0, ih]

theorem importCollect_globals_dropped (snapshot : Table) (g : Table) (k : GStr)
    (hk : tableGet snapshot k = none) :
    tableGet (importCollect snapshot g).1 k = none := by
  induction g with
  | nil => simp [importCollect, tableGet]
  | cons kv rest ih =>
    obtain ⟨k0, v0⟩ := kv
    rcases hsnap : tableGet snapshot k0 with _ | w
    · simp [importCollect, hsnap, ih]
    · by_cases h0 : k0 = k
      · subst h0; rw [hk] at hsnap; exact absurd hsnap (by simp)
      · simp [importCollect, hsnap, tableGet, h0, ih]

-- ---- Claim theorems ----

/-- C5: for every permission set, kind and target, `hasPermission` returns
true iff the allow-all flag is set or some recorded entry has the query's
kind and its glob pattern matches the target (star = any possibly empty
byte run, other bytes literal); and on a set with no entries and allow-all
clear, every query returns false. -/
theorem C5_hasPermission_glob (set : PermissionSet) (k : PermissionType) (target : GStr) :
    (hasPermission set k target = true ↔
      set.allowAll = true ∨ ∃ p ∈ set.permissions, p.type = k ∧ GlobSem p.target target) ∧
    hasPermission ⟨[], false⟩ k target = false := by
  constructor
  · unfold hasPermission
    simp only [Bool.or_eq_true, List.any_eq_true, Bool.and_eq_true, beq_iff_eq,
      globMatch_iff_sem]
  · simp [hasPermission]

/-- C1: when an error is raised with at least one handler registered,
firing the topmost handler restores the frame count and the stack top to
the values recorded by `execPushHandler`, sets the instruction pointer to
the handler target recorded at push (push-time ip plus the jump operand,
where the compiler has arranged the handler body with a local named
`error`), pushes the pending error map onto the restored stack, and clears
`hasError`. -/
theorem C1_handler_fire_restores_push_state (s : VMState) (offset : Nat) (s' t : VMState)
    (hpush : execPushHandler s offset = .next s')
    (htop : t.handlers.head? = s'.handlers.head?)
    (herr : t.hasError = true)
    (hlen : s.stack.length ≤ t.stack.length) :
    (dispatchRaisedError t).frameCount = s.frameCount ∧
    ((dispatchRaisedError t).stack).length = s.stack.length + 1 ∧
    (dispatchRaisedError t).stack =
      t.currentError :: t.stack.drop (t.stack.length - s.stack.length) ∧
    (dispatchRaisedError t).ip = s.ip + offset ∧
    (dispatchRaisedError t).hasError = false := by
  have hs' : s'.handlers = ⟨s.ip + offset, s.frameCount, s.stack.length⟩ :: s.handlers := by
    unfold execPushHandler at hpush
    split at hpush
    · exact absurd hpush (by simp)
    · cases hpush
      rfl
  rcases ht : t.handlers with _ | ⟨h, rest⟩
  · rw [hs', ht] at htop
    simp at htop
  · rw [hs', ht] at htop
    simp only [List.head?_cons, Option.some.injEq] at htop
    subst htop
    simp [dispatchRaisedError, ht]
    omega

/-- C1 witness: a concrete push followed by a concrete raise. -/
theorem C1_handler_fire_restores_push_state_witness :
    let s : VMState := ⟨[.vnum 7], 1, 20, [], false, .vnil, []⟩
    let s' : VMState := ⟨[.vnum 7], 1, 20, [⟨25, 1, 1⟩], false, .vnil, []⟩
    let t : VMState :=
      ⟨[.vnum 9, .vnum 8, .vnum 7], 3, 40, [⟨25, 1, 1⟩], true,
        .vmap [(("message".toList), .vstr ("boom".toList))], []⟩
    (dispatchRaisedError t).frameCount = s.frameCount ∧
    ((dispatchRaisedError t).stack).length = s.stack.length + 1 ∧
    (dispatchRaisedError t).stack =
      t.currentError :: t.stack.drop (t.stack.length - s.stack.length) ∧
    (dispatchRaisedError t).ip = s.ip + 5 ∧
    (dispatchRaisedError t).hasError = false :=
  C1_handler_fire_restores_push_state _ 5 _ _ rfl rfl rfl (by simp)

/-- C3 counterexample: a Div whose numeric divisor is zero does NOT set
`hasError` or store an error map — it takes the `runtimeError` path
(`"Division by zero."`) and `run` returns `INTERPRET_RUNTIME_ERROR`
unconditionally, so the claim is false at this input. -/
theorem C3_div_zero_counterexample :
    let s : VMState := ⟨[.vnum 0, .vnum 1], 1, 0, [⟨9, 1, 0⟩], false, .vnil, []⟩
    execDivide s = .runtimeFault ("Division by zero.".toList) (runtimeError s) ∧
    (runtimeError s).hasError = false ∧
    (runtimeError s).currentError = GValue.vnil := by
  exact ⟨rfl, rfl, rfl⟩

/-- C3 amended: whenever the VM executes Div with a numeric zero divisor it
calls `runtimeError("Division by zero.")` and terminates with a
runtime-error result; `hasError` and `currentError` are left untouched (in
particular no handler receives the fault through the raised-error path). -/
theorem C3_div_zero_is_runtime_fault (s : VMState) (a : ℚ) (rest : List GValue)
    (hstack : s.stack = .vnum 0 :: .vnum a :: rest) :
    execDivide s = .runtimeFault ("Division by zero.".toList) (runtimeError s) ∧
    (runtimeError s).hasError = s.hasError ∧
    (runtimeError s).currentError = s.currentError := by
  refine ⟨?_, rfl, rfl⟩
  rw [execDivide, hstack]
  rfl

/-- C3 witness for the amended statement. -/
theorem C3_div_zero_is_runtime_fault_witness :
    let s : VMState := ⟨[.vnum 0, .vnum 4], 1, 0, [], false, .vnil, []⟩
    execDivide s = .runtimeFault ("Division by zero.".toList) (runtimeError s) ∧
    (runtimeError s).hasError = s.hasError ∧
    (runtimeError s).currentError = s.currentError :=
  C3_div_zero_is_runtime_fault _ 4 [] rfl

/-- C4: `markRoots` (memory.c) traverses the value stack, the frame
closures, the open upvalues, the globals and the module cache but NOT the
currently-compiling function's constant pool; a constant already installed
there is invisible to the mark phase, and a collection triggered during
compilation frees it.  The second conjunct evaluates the collector at the
failing input: one object (id 0) installed in the compiling pool and
otherwise unreferenced is freed, refuting the claim. -/
theorem C4_compiling_constants_not_rooted :
    (∀ s : VMGCState, ∀ pool : List ObjId,
      markRoots { s with compilingConstants := pool } = markRoots s) ∧
    (let s : VMGCState := ⟨[], [], [], [], [], [0]⟩
     0 ∈ s.compilingConstants ∧
     0 ∉ markRoots s ∧
     gcSurvivors s [0] (fun _ => []) 1 = [] ∧
     gcFreed s [0] (fun _ => []) 1 = [0]) := by
  refine ⟨fun s pool => rfl, by decide, by decide, rfl, rfl⟩

/-- C6: after a successful first-time import, the module map holds exactly
the globals whose keys were added during the module's top-level run (keys
absent from the snapshot, with their post-run values); those keys are
deleted from the real globals table (excepting the binding name itself,
which is rebound to the module map); every pre-existing global is still a
top-level global with its post-run value; and the binding name maps to the
module namespace map. -/
theorem C6_import_diff (snapshot g' modules : Table) (path modName : GStr) :
    let gm := importCollect snapshot g'
    let gFinal := (importFinish snapshot g' modules path modName).1
    (∀ k v, tableGet gm.2 k = some v ↔
      (tableGet g' k = some v ∧ tableGet snapshot k = none)) ∧
    (∀ k, tableGet snapshot k = none → k ≠ modName → tableGet gFinal k = none) ∧
    (∀ k v, tableGet snapshot k ≠ none → tableGet g' k = some v → k ≠ modName →
      tableGet gFinal k = some v) ∧
    tableGet gFinal modName = some (.vmap gm.2) ∧
    tableGet (importFinish snapshot g' modules path modName).2 path = some (.vmap gm.2) := by
  refine ⟨fun k v => importCollect_moduleMap snapshot g' k v, ?_, ?_, ?_, ?_⟩
  · intro k hk hne
    show tableGet (tableSet (importCollect snapshot g').1 modName _) k = none
    rw [tableGet_set_other _ hne, importCollect_globals_dropped snapshot g' k hk]
  · intro k v hk hv hne
    show tableGet (tableSet (importCollect snapshot g').1 modName _) k = some v
    rw [tableGet_set_other _ hne, importCollect_globals_kept snapshot g' k hk, hv]
  · exact tableGet_set_self _ _ _
  · exact tableGet_set_self _ _ _

/-- C6 witness: module run added `greet`; pre-existing `print` stays, the
added key is exported and removed, `lib` is bound to the module map. -/
theorem C6_import_diff_witness :
    let printK := "print".toList
    let greetK := "greet".toList
    let libK := "lib".toList
    let snapshot : Table := [(printK, .vnum 1)]
    let g' : Table := [(printK, .vnum 1), (greetK, .vnum 2)]
    let gm := importCollect snapshot g'
    let gFinal := (importFinish snapshot g' [] ("lib.glipt".toList) libK).1
    (tableGet gm.2 greetK = some (.vnum 2) ↔
      (tableGet g' greetK = some (.vnum 2) ∧ tableGet snapshot greetK = none)) ∧
    tableGet gFinal greetK = none ∧
    tableGet gFinal printK = some (.vnum 1) ∧
    tableGet gFinal libK = some (.vmap gm.2) := by
  intro printK greetK libK snapshot g' gm gFinal
  have h := C6_import_diff snapshot g' [] ("lib.glipt".toList) libK
  exact ⟨h.1 greetK (.vnum 2),
    h.2.1 greetK rfl (by decide),
    h.2.2.1 printK (.vnum 1) (fun hh => Option.noConfusion hh) rfl (by decide),
    h.2.2.2.1⟩

/-- C9: the claim's universals fail in the code.  After a read of global
`x` fills the inline cache and the IMPORT diff tombstones `x` (capacity
unchanged), the name is absent from the table, yet GET_GLOBAL takes the
stale cache hit and pushes the dead slot's value instead of the
`Undefined variable` fault, and SET_GLOBAL writes the tombstoned entry in
place without re-inserting the name: afterwards the lookup still misses. -/
theorem C9_global_ic_stale_after_delete :
    (execGetGlobal ⟨[], ⟨8, [⟨some ("x".toList), .vnum 1⟩]⟩, ⟨none, 0, 0⟩⟩
        ("x".toList) =
      .next ⟨[.vnum 1], ⟨8, [⟨some ("x".toList), .vnum 1⟩]⟩,
        ⟨some ("x".toList), 0, 8⟩⟩) ∧
    (gtableDelete ⟨8, [⟨some ("x".toList), .vnum 1⟩]⟩ ("x".toList) =
      ⟨8, [⟨none, .vnum 1⟩]⟩) ∧
    (gtableGet ⟨8, [⟨none, .vnum 1⟩]⟩ ("x".toList) = none) ∧
    (execGetGlobal ⟨[], ⟨8, [⟨none, .vnum 1⟩]⟩, ⟨some ("x".toList), 0, 8⟩⟩
        ("x".toList) =
      .next ⟨[.vnum 1], ⟨8, [⟨none, .vnum 1⟩]⟩, ⟨some ("x".toList), 0, 8⟩⟩) ∧
    (∀ msg, execGetGlobal ⟨[], ⟨8, [⟨none, .vnum 1⟩]⟩, ⟨some ("x".toList), 0, 8⟩⟩
        ("x".toList) ≠ .undefinedFault msg) ∧
    (execSetGlobal ⟨[.vnum 5], ⟨8, [⟨none, .vnum 1⟩]⟩, ⟨some ("x".toList), 0, 8⟩⟩
        ("x".toList) =
      ⟨[.vnum 5], ⟨8, [⟨none, .vnum 5⟩]⟩, ⟨some ("x".toList), 0, 8⟩⟩) ∧
    (gtableGet ⟨8, [⟨none, .vnum 5⟩]⟩ ("x".toList) = none) := by
  refine ⟨rfl, rfl, rfl, rfl, ?_, rfl, rfl⟩
  intro msg h
  exact GlobalsResult.noConfusion h

/-- C7: the falseness predicate used by JumpIfFalse, Not and the
short-circuit operators (vm.c cases JUMP_IF_FALSE and NOT both call
`isFalsey` on the stack top) holds exactly on nil, false and the number
zero; the empty string, the empty list and the empty map are truthy. -/
theorem C7_isFalsey_characterisation (v : GValue) :
    (isFalsey v = true ↔ v = GValue.vnil ∨ v = GValue.vbool false ∨ v = GValue.vnum 0) ∧
    isFalsey (GValue.vstr []) = false ∧ isFalsey (GValue.vlist []) = false ∧
    isFalsey (GValue.vmap []) = false := by
  refine ⟨?_, rfl, rfl, rfl⟩
  cases v <;> simp [isFalsey]

theorem set_two_at (pre : List Nat) (a b hi lo : Nat) (suf : List Nat) :
    ((pre ++ a :: b :: suf).set pre.length hi).set (pre.length + 1) lo =
      pre ++ hi :: lo :: suf := by
  induction pre with
  | nil => rfl
  | cons x xs ih =>
    simp only [List.cons_append, List.length_cons, List.set_cons_succ]
    exact congrArg (x :: ·) ih

theorem patchJump_at (pre : List Nat) (x y : Nat) (suf : List Nat) (h : suf.length ≤ 65535) :
    patchJump ⟨pre ++ x :: y :: suf⟩ pre.length =
      ⟨pre ++ ((suf.length >>> 8) % 256) :: (suf.length % 256) :: suf⟩ := by
  have hlen : (pre ++ x :: y :: suf).length - pre.length - 2 = suf.length := by
    simp
  unfold patchJump
  simp only [hlen]
  rw [if_neg (by omega)]
  exact congrArg Chunk.mk (set_two_at pre x y _ _ suf)

theorem compileOnFailure_spec (c0 : Chunk) (prot body : List Nat)
    (hp : prot.length + 4 ≤ 65535) (hb : body.length ≤ 65535) :
    (compileOnFailure c0 prot body).chunk.code =
      c0.code ++ [OP_PUSH_HANDLER, ((prot.length + 4) >>> 8) % 256, (prot.length + 4) % 256]
        ++ prot ++ [OP_POP_HANDLER, OP_JUMP, (body.length >>> 8) % 256, body.length % 256]
        ++ body ∧
    (compileOnFailure c0 prot body).pushSite = c0.code.length + 1 ∧
    (compileOnFailure c0 prot body).popHandlerOff = c0.code.length + 3 + prot.length ∧
    (compileOnFailure c0 prot body).handlerEntry = c0.code.length + 7 + prot.length := by
  have hpatch1 :
      patchJump ⟨(c0.code ++ [OP_PUSH_HANDLER, 255, 255]) ++ prot
          ++ [OP_POP_HANDLER, OP_JUMP, 255, 255]⟩ (c0.code.length + 1) =
        ⟨(c0.code ++ [OP_PUSH_HANDLER]) ++ (((prot.length + 4) >>> 8) % 256) ::
          ((prot.length + 4) % 256) ::
          (prot ++ [OP_POP_HANDLER, OP_JUMP, 255, 255])⟩ := by
    have hsh := patchJump_at (c0.code ++ [OP_PUSH_HANDLER]) 255 255
      (prot ++ [OP_POP_HANDLER, OP_JUMP, 255, 255]) (by simp; omega)
    simpa [List.append_assoc] using hsh
  have hpatch2 :
      patchJump ⟨((c0.code ++ [OP_PUSH_HANDLER]) ++ (((prot.length + 4) >>> 8) % 256) ::
          ((prot.length + 4) % 256) :: (prot ++ [OP_POP_HANDLER, OP_JUMP, 255, 255]))
          ++ body⟩ (c0.code.length + prot.length + 5) =
        ⟨((c0.code ++ [OP_PUSH_HANDLER]) ++ (((prot.length + 4) >>> 8) % 256) ::
          ((prot.length + 4) % 256) :: (prot ++ [OP_POP_HANDLER, OP_JUMP]))
          ++ ((body.length >>> 8) % 256) :: (body.length % 256) :: body⟩ := by
    have hsh := patchJump_at ((c0.code ++ [OP_PUSH_HANDLER]) ++
        (((prot.length + 4) >>> 8) % 256) :: ((prot.length + 4) % 256) ::
        (prot ++ [OP_POP_HANDLER, OP_JUMP])) 255 255 body hb
    have hlen : ((c0.code ++ [OP_PUSH_HANDLER]) ++
        (((prot.length + 4) >>> 8) % 256) :: ((prot.length + 4) % 256) ::
        (prot ++ [OP_POP_HANDLER, OP_JUMP])).length = c0.code.length + prot.length + 5 := by
      simp
      omega
    rw [hlen] at hsh
    rw [← hsh]
    congr 1
    simp [List.append_assoc]
  have hunfold : compileOnFailure c0 prot body =
      ⟨patchJump
        ⟨(patchJump
            ⟨(c0.code ++ [OP_PUSH_HANDLER, 255, 255]) ++ prot ++
              [OP_POP_HANDLER, OP_JUMP, 255, 255]⟩
            (c0.code.length + 1)).code ++ body⟩
        (c0.code.length + prot.length + 5),
       c0.code.length + 1, c0.code.length + 3 + prot.length,
       c0.code.length + 7 + prot.length⟩ := by
    unfold compileOnFailure emitJump emitByte writeChunk
    simp [List.append_assoc]
    refine ⟨?_, by omega, by omega⟩
    congr 1
  rw [hunfold, hpatch1, hpatch2]
  refine ⟨?_, rfl, rfl, rfl⟩
  simp [List.append_assoc]

/-- C2 (code bug): on the fire path the dispatch leaves the handler stack
unchanged (`handlerCount` is never decremented), and the compiler patches
the PUSH_HANDLER target to the offset just past the emitted POP_HANDLER and
end-jump — so the handler body runs with its own handler still topmost, and
an error raised by that body is dispatched back to the same inner handler,
not to the next outer one.  The final conjunct evaluates the dispatch at
the failing input: handlers [inner(ip 10), outer(ip 5)], the inner fires,
its body raises again, and the second dispatch lands on ip 10 with both
handlers still registered instead of bubbling to the outer handler's 5. -/
theorem C2_handler_body_error_redispatch :
    (∀ t : VMState, (dispatchRaisedError t).handlers = t.handlers) ∧
    (∀ c0 : Chunk, ∀ prot body : List Nat,
      (compileOnFailure c0 prot body).handlerEntry =
        (compileOnFailure c0 prot body).popHandlerOff + 4 ∧
      (prot.length + 4 ≤ 65535 → body.length ≤ 65535 →
        (compileOnFailure c0 prot body).chunk.code =
          c0.code ++ [OP_PUSH_HANDLER, ((prot.length + 4) >>> 8) % 256,
            (prot.length + 4) % 256] ++ prot ++ [OP_POP_HANDLER, OP_JUMP,
            (body.length >>> 8) % 256, body.length % 256] ++ body)) ∧
    (let outer : ErrorHandler := ⟨5, 0, 0⟩
     let inner : ErrorHandler := ⟨10, 1, 1⟩
     let e1 : GValue := .vmap [(("message".toList), .vstr ("first".toList))]
     let e2 : GValue := .vmap [(("message".toList), .vstr ("second".toList))]
     let t : VMState := ⟨[.vnum 1, .vnum 0], 2, 30, [inner, outer], true, e1, []⟩
     let u := dispatchRaisedError t
     let u2 := dispatchRaisedError { u with hasError := true, currentError := e2 }
     u.ip = 10 ∧ u.handlers = [inner, outer] ∧ u2.ip = 10 ∧ u2.handlers = [inner, outer]) := by
  refine ⟨?_, ?_, rfl, rfl, rfl, rfl⟩
  · intro t
    unfold dispatchRaisedError
    rcases ht : t.handlers with _ | ⟨h, rest⟩
    · exact ht
    · rfl
  · intro c0 prot body
    constructor
    · unfold compileOnFailure emitJump emitByte writeChunk patchJump
      simp [List.append_assoc]
      omega
    · intro hp hb
      exact (compileOnFailure_spec c0 prot body hp hb).1

/-- C2 witness: the code-shape conjunct at a concrete protected region and
handler body. -/
theorem C2_handler_body_error_redispatch_witness :
    (compileOnFailure ⟨[]⟩ [OP_NIL, OP_POP] [OP_POP]).chunk.code =
      [] ++ [OP_PUSH_HANDLER, (6 >>> 8) % 256, 6 % 256] ++ [OP_NIL, OP_POP] ++
        [OP_POP_HANDLER, OP_JUMP, (1 >>> 8) % 256, 1 % 256] ++ [OP_POP] :=
  ((C2_handler_body_error_redispatch.2.1 ⟨[]⟩ [OP_NIL, OP_POP] [OP_POP]).2
    (by decide) (by decide))

theorem getD_at_offset (pre l : List Nat) (i d : Nat) :
    (pre ++ l).getD (pre.length + i) d = l.getD i d := by
  rw [List.getD_append_right _ _ _ _ (by omega)]
  congr 1
  omega

set_option maxHeartbeats 1000000 in
theorem compileForWithContinue_unfold (c0 : Chunk) (iterCode : List Nat)
    (iterSlot idxSlot varSlot constZero constOne lengthConst : Nat)
    (bodyPre bodyPost : List Nat) :
    compileForWithContinue c0 iterCode iterSlot idxSlot varSlot constZero constOne
        lengthConst bodyPre bodyPost =
      ⟨⟨(patchJump
          ⟨(c0.code ++ iterCode ++ [OP_CONSTANT, constZero, OP_NIL, OP_GET_LOCAL, idxSlot,
              OP_GET_LOCAL, iterSlot, OP_GET_PROPERTY, lengthConst, OP_LESS,
              OP_JUMP_IF_FALSE]) ++ 255 :: 255 ::
            ([OP_POP, OP_GET_LOCAL, iterSlot, OP_GET_LOCAL, idxSlot, OP_INDEX_GET,
              OP_SET_LOCAL, varSlot, OP_POP] ++ bodyPre ++
             [OP_LOOP, ((bodyPre.length + 22) >>> 8) % 256, (bodyPre.length + 22) % 256] ++
             bodyPost ++
             [OP_GET_LOCAL, idxSlot, OP_CONSTANT, constOne, OP_ADD, OP_SET_LOCAL, idxSlot,
              OP_POP, OP_LOOP, ((bodyPre.length + bodyPost.length + 33) >>> 8) % 256,
              (bodyPre.length + bodyPost.length + 33) % 256])⟩
          (c0.code.length + iterCode.length + 11)).code ++ [OP_POP]⟩,
        c0.code.length + iterCode.length + 3,
        c0.code.length + iterCode.length + 22 + bodyPre.length,
        c0.code.length + iterCode.length + 25 + bodyPre.length + bodyPost.length⟩ := by
  unfold compileForWithContinue emitLoop emitJump emitBytes emitByte writeChunk
  simp [List.append_assoc]
  simp_arith [Nat.add_sub_add_left]
  congr 1

theorem readShort_at (pre : List Nat) (a b : Nat) (l : List Nat) :
    readShort (pre ++ a :: b :: l) pre.length = a * 256 + b := by
  unfold readShort
  rw [List.getD_append_right _ _ _ _ (le_refl _),
      List.getD_append_right _ _ _ _ (by omega)]
  simp

theorem be16_roundtrip (v : Nat) (h : v ≤ 65535) :
    ((v >>> 8) % 256) * 256 + v % 256 = v := by
  rw [Nat.shiftRight_eq_div_pow]
  omega

set_option maxHeartbeats 1000000 in
theorem C10_for_continue_targets_condition (c0 : Chunk) (iterCode : List Nat)
    (iterSlot idxSlot varSlot constZero constOne lengthConst : Nat)
    (bodyPre bodyPost : List Nat)
    (hcont : bodyPre.length + 22 ≤ 65535)
    (hexit : bodyPre.length + bodyPost.length + 23 ≤ 65535) :
    (compileForWithContinue c0 iterCode iterSlot idxSlot varSlot constZero
      constOne lengthConst bodyPre bodyPost).loopStart <
      (compileForWithContinue c0 iterCode iterSlot idxSlot varSlot constZero
        constOne lengthConst bodyPre bodyPost).incrStart ∧
    (compileForWithContinue c0 iterCode iterSlot idxSlot varSlot constZero
      constOne lengthConst bodyPre bodyPost).continueSite <
      (compileForWithContinue c0 iterCode iterSlot idxSlot varSlot constZero
        constOne lengthConst bodyPre bodyPost).incrStart ∧
    readShort (compileForWithContinue c0 iterCode iterSlot idxSlot varSlot constZero
        constOne lengthConst bodyPre bodyPost).chunk.code
      ((compileForWithContinue c0 iterCode iterSlot idxSlot varSlot constZero
        constOne lengthConst bodyPre bodyPost).continueSite + 1) =
      (compileForWithContinue c0 iterCode iterSlot idxSlot varSlot constZero
        constOne lengthConst bodyPre bodyPost).continueSite + 3 -
      (compileForWithContinue c0 iterCode iterSlot idxSlot varSlot constZero
        constOne lengthConst bodyPre bodyPost).loopStart ∧
    (∀ s : VMState,
      s.ip = (compileForWithContinue c0 iterCode iterSlot idxSlot varSlot constZero
        constOne lengthConst bodyPre bodyPost).continueSite →
      execLoop (compileForWithContinue c0 iterCode iterSlot idxSlot varSlot constZero
          constOne lengthConst bodyPre bodyPost).chunk.code s =
        { s with ip := (compileForWithContinue c0 iterCode iterSlot idxSlot varSlot
            constZero constOne lengthConst bodyPre bodyPost).loopStart }) := by
  rw [compileForWithContinue_unfold]
  have hpre : (c0.code ++ iterCode ++ [OP_CONSTANT, constZero, OP_NIL, OP_GET_LOCAL,
      idxSlot, OP_GET_LOCAL, iterSlot, OP_GET_PROPERTY, lengthConst, OP_LESS,
      OP_JUMP_IF_FALSE]).length = c0.code.length + iterCode.length + 11 := by
    simp
    omega
  rw [← hpre, patchJump_at _ 255 255 _ (by simp; omega)]
  refine ⟨by simp; omega, by simp; omega, ?_, ?_⟩
  · have hcode :
        ((⟨c0.code ++ iterCode ++ [OP_CONSTANT, constZero, OP_NIL, OP_GET_LOCAL, idxSlot,
            OP_GET_LOCAL, iterSlot, OP_GET_PROPERTY, lengthConst, OP_LESS,
            OP_JUMP_IF_FALSE] ++
          ((([OP_POP, OP_GET_LOCAL, iterSlot, OP_GET_LOCAL, idxSlot, OP_INDEX_GET,
              OP_SET_LOCAL, varSlot, OP_POP] ++ bodyPre ++
            [OP_LOOP, ((bodyPre.length + 22) >>> 8) % 256, (bodyPre.length + 22) % 256] ++
            bodyPost ++
            [OP_GET_LOCAL, idxSlot, OP_CONSTANT, constOne, OP_ADD, OP_SET_LOCAL, idxSlot,
              OP_POP, OP_LOOP, ((bodyPre.length + bodyPost.length + 33) >>> 8) % 256,
              (bodyPre.length + bodyPost.length + 33) % 256]).length >>> 8) % 256) ::
          (([OP_POP, OP_GET_LOCAL, iterSlot, OP_GET_LOCAL, idxSlot, OP_INDEX_GET,
              OP_SET_LOCAL, varSlot, OP_POP] ++ bodyPre ++
            [OP_LOOP, ((bodyPre.length + 22) >>> 8) % 256, (bodyPre.length + 22) % 256] ++
            bodyPost ++
            [OP_GET_LOCAL, idxSlot, OP_CONSTANT, constOne, OP_ADD, OP_SET_LOCAL, idxSlot,
              OP_POP, OP_LOOP, ((bodyPre.length + bodyPost.length + 33) >>> 8) % 256,
              (bodyPre.length + bodyPost.length + 33) % 256]).length % 256) ::
          ([OP_POP, OP_GET_LOCAL, iterSlot, OP_GET_LOCAL, idxSlot, OP_INDEX_GET,
              OP_SET_LOCAL, varSlot, OP_POP] ++ bodyPre ++
            [OP_LOOP, ((bodyPre.length + 22) >>> 8) % 256, (bodyPre.length + 22) % 256] ++
            bodyPost ++
            [OP_GET_LOCAL, idxSlot, OP_CONSTANT, constOne, OP_ADD, OP_SET_LOCAL, idxSlot,
              OP_POP, OP_LOOP, ((bodyPre.length + bodyPost.length + 33) >>> 8) % 256,
              (bodyPre.length + bodyPost.length + 33) % 256])⟩ : Chunk).code ++ [OP_POP]) =
        (c0.code ++ iterCode ++ [OP_CONSTANT, constZero, OP_NIL, OP_GET_LOCAL, idxSlot,
            OP_GET_LOCAL, iterSlot, OP_GET_PROPERTY, lengthConst, OP_LESS,
            OP_JUMP_IF_FALSE,
            ((bodyPre.length + bodyPost.length + 23) >>> 8) % 256,
            (bodyPre.length + bodyPost.length + 23) % 256,
            OP_POP, OP_GET_LOCAL, iterSlot, OP_GET_LOCAL, idxSlot, OP_INDEX_GET,
            OP_SET_LOCAL, varSlot, OP_POP] ++ bodyPre ++ [OP_LOOP]) ++
          (((bodyPre.length + 22) >>> 8) % 256) :: ((bodyPre.length + 22) % 256) ::
          (bodyPost ++
            [OP_GET_LOCAL, idxSlot, OP_CONSTANT, constOne, OP_ADD, OP_SET_LOCAL, idxSlot,
              OP_POP, OP_LOOP, ((bodyPre.length + bodyPost.length + 33) >>> 8) % 256,
              (bodyPre.length + bodyPost.length + 33) % 256, OP_POP]) := by
      simp_arith [List.append_assoc]
    have hb : ((c0.code ++ iterCode ++ [OP_CONSTANT, constZero, OP_NIL, OP_GET_LOCAL, idxSlot,
            OP_GET_LOCAL, iterSlot, OP_GET_PROPERTY, lengthConst, OP_LESS,
            OP_JUMP_IF_FALSE,
            ((bodyPre.length + bodyPost.length + 23) >>> 8) % 256,
            (bodyPre.length + bodyPost.length + 23) % 256,
            OP_POP, OP_GET_LOCAL, iterSlot, OP_GET_LOCAL, idxSlot, OP_INDEX_GET,
            OP_SET_LOCAL, varSlot, OP_POP] ++ bodyPre ++ [OP_LOOP])).length =
        c0.code.length + iterCode.length + 22 + bodyPre.length + 1 := by
      simp
      omega
    rw [hcode]
    show readShort
        ((c0.code ++ iterCode ++ [OP_CONSTANT, constZero, OP_NIL, OP_GET_LOCAL, idxSlot,
            OP_GET_LOCAL, iterSlot, OP_GET_PROPERTY, lengthConst, OP_LESS,
            OP_JUMP_IF_FALSE,
            ((bodyPre.length + bodyPost.length + 23) >>> 8) % 256,
            (bodyPre.length + bodyPost.length + 23) % 256,
            OP_POP, OP_GET_LOCAL, iterSlot, OP_GET_LOCAL, idxSlot, OP_INDEX_GET,
            OP_SET_LOCAL, varSlot, OP_POP] ++ bodyPre ++ [OP_LOOP]) ++
          (((bodyPre.length + 22) >>> 8) % 256) :: ((bodyPre.length + 22) % 256) ::
          (bodyPost ++
            [OP_GET_LOCAL, idxSlot, OP_CONSTANT, constOne, OP_ADD, OP_SET_LOCAL, idxSlot,
              OP_POP, OP_LOOP, ((bodyPre.length + bodyPost.length + 33) >>> 8) % 256,
              (bodyPre.length + bodyPost.length + 33) % 256, OP_POP]))
        (c0.code.length + iterCode.length + 22 + bodyPre.length + 1) =
      c0.code.length + iterCode.length + 22 + bodyPre.length + 3 -
        (c0.code.length + iterCode.length + 3)
    rw [← hb, readShort_at, be16_roundtrip _ hcont]
    omega
  · intro s hip
    have hip2 : s.ip = c0.code.length + iterCode.length + 22 + bodyPre.length := hip
    have hcode2 :
        ((⟨c0.code ++ iterCode ++ [OP_CONSTANT, constZero, OP_NIL, OP_GET_LOCAL, idxSlot,
            OP_GET_LOCAL, iterSlot, OP_GET_PROPERTY, lengthConst, OP_LESS,
            OP_JUMP_IF_FALSE] ++
          ((([OP_POP, OP_GET_LOCAL, iterSlot, OP_GET_LOCAL, idxSlot, OP_INDEX_GET,
              OP_SET_LOCAL, varSlot, OP_POP] ++ bodyPre ++
            [OP_LOOP, ((bodyPre.length + 22) >>> 8) % 256, (bodyPre.length + 22) % 256] ++
            bodyPost ++
            [OP_GET_LOCAL, idxSlot, OP_CONSTANT, constOne, OP_ADD, OP_SET_LOCAL, idxSlot,
              OP_POP, OP_LOOP, ((bodyPre.length + bodyPost.length + 33) >>> 8) % 256,
              (bodyPre.length + bodyPost.length + 33) % 256]).length >>> 8) % 256) ::
          (([OP_POP, OP_GET_LOCAL, iterSlot, OP_GET_LOCAL, idxSlot, OP_INDEX_GET,
              OP_SET_LOCAL, varSlot, OP_POP] ++ bodyPre ++
            [OP_LOOP, ((bodyPre.length + 22) >>> 8) % 256, (bodyPre.length + 22) % 256] ++
            bodyPost ++
            [OP_GET_LOCAL, idxSlot, OP_CONSTANT, constOne, OP_ADD, OP_SET_LOCAL, idxSlot,
              OP_POP, OP_LOOP, ((bodyPre.length + bodyPost.length + 33) >>> 8) % 256,
              (bodyPre.length + bodyPost.length + 33) % 256]).length % 256) ::
          ([OP_POP, OP_GET_LOCAL, iterSlot, OP_GET_LOCAL, idxSlot, OP_INDEX_GET,
              OP_SET_LOCAL, varSlot, OP_POP] ++ bodyPre ++
            [OP_LOOP, ((bodyPre.length + 22) >>> 8) % 256, (bodyPre.length + 22) % 256] ++
            bodyPost ++
            [OP_GET_LOCAL, idxSlot, OP_CONSTANT, constOne, OP_ADD, OP_SET_LOCAL, idxSlot,
              OP_POP, OP_LOOP, ((bodyPre.length + bodyPost.length + 33) >>> 8) % 256,
              (bodyPre.length + bodyPost.length + 33) % 256])⟩ : Chunk).code ++ [OP_POP]) =
        (c0.code ++ iterCode ++ [OP_CONSTANT, constZero, OP_NIL, OP_GET_LOCAL, idxSlot,
            OP_GET_LOCAL, iterSlot, OP_GET_PROPERTY, lengthConst, OP_LESS,
            OP_JUMP_IF_FALSE,
            ((bodyPre.length + bodyPost.length + 23) >>> 8) % 256,
            (bodyPre.length + bodyPost.length + 23) % 256,
            OP_POP, OP_GET_LOCAL, iterSlot, OP_GET_LOCAL, idxSlot, OP_INDEX_GET,
            OP_SET_LOCAL, varSlot, OP_POP] ++ bodyPre ++ [OP_LOOP]) ++
          (((bodyPre.length + 22) >>> 8) % 256) :: ((bodyPre.length + 22) % 256) ::
          (bodyPost ++
            [OP_GET_LOCAL, idxSlot, OP_CONSTANT, constOne, OP_ADD, OP_SET_LOCAL, idxSlot,
              OP_POP, OP_LOOP, ((bodyPre.length + bodyPost.length + 33) >>> 8) % 256,
              (bodyPre.length + bodyPost.length + 33) % 256, OP_POP]) := by
      simp_arith [List.append_assoc]
    have hb2 : ((c0.code ++ iterCode ++ [OP_CONSTANT, constZero, OP_NIL, OP_GET_LOCAL, idxSlot,
            OP_GET_LOCAL, iterSlot, OP_GET_PROPERTY, lengthConst, OP_LESS,
            OP_JUMP_IF_FALSE,
            ((bodyPre.length + bodyPost.length + 23) >>> 8) % 256,
            (bodyPre.length + bodyPost.length + 23) % 256,
            OP_POP, OP_GET_LOCAL, iterSlot, OP_GET_LOCAL, idxSlot, OP_INDEX_GET,
            OP_SET_LOCAL, varSlot, OP_POP] ++ bodyPre ++ [OP_LOOP])).length =
        c0.code.length + iterCode.length + 22 + bodyPre.length + 1 := by
      simp
      omega
    rw [hcode2]
    show { s with ip := (s.ip + 3 -
        readShort
          ((c0.code ++ iterCode ++ [OP_CONSTANT, constZero, OP_NIL, OP_GET_LOCAL, idxSlot,
            OP_GET_LOCAL, iterSlot, OP_GET_PROPERTY, lengthConst, OP_LESS,
            OP_JUMP_IF_FALSE,
            ((bodyPre.length + bodyPost.length + 23) >>> 8) % 256,
            (bodyPre.length + bodyPost.length + 23) % 256,
            OP_POP, OP_GET_LOCAL, iterSlot, OP_GET_LOCAL, idxSlot, OP_INDEX_GET,
            OP_SET_LOCAL, varSlot, OP_POP] ++ bodyPre ++ [OP_LOOP]) ++
            (((bodyPre.length + 22) >>> 8) % 256) :: ((bodyPre.length + 22) % 256) ::
            (bodyPost ++
            [OP_GET_LOCAL, idxSlot, OP_CONSTANT, constOne, OP_ADD, OP_SET_LOCAL, idxSlot,
              OP_POP, OP_LOOP, ((bodyPre.length + bodyPost.length + 33) >>> 8) % 256,
              (bodyPre.length + bodyPost.length + 33) % 256, OP_POP]))
          (s.ip + 1)) } =
      { s with ip := c0.code.length + iterCode.length + 3 }
    rw [hip2, ← hb2, readShort_at, be16_roundtrip _ hcont]
    have harith : c0.code.length + iterCode.length + 22 + bodyPre.length + 3 -
        (bodyPre.length + 22) = c0.code.length + iterCode.length + 3 := by omega
    rw [harith]

/-- C10 witness: the layout and the continue step evaluated on a concrete
for-loop compilation. -/
theorem C10_for_continue_targets_condition_witness :
    (compileForWithContinue ⟨[]⟩ [OP_NIL] 1 2 3 0 1 2 [] []).loopStart <
      (compileForWithContinue ⟨[]⟩ [OP_NIL] 1 2 3 0 1 2 [] []).incrStart ∧
    readShort (compileForWithContinue ⟨[]⟩ [OP_NIL] 1 2 3 0 1 2 [] []).chunk.code
      ((compileForWithContinue ⟨[]⟩ [OP_NIL] 1 2 3 0 1 2 [] []).continueSite + 1) =
      (compileForWithContinue ⟨[]⟩ [OP_NIL] 1 2 3 0 1 2 [] []).continueSite + 3 -
      (compileForWithContinue ⟨[]⟩ [OP_NIL] 1 2 3 0 1 2 [] []).loopStart ∧
    execLoop (compileForWithContinue ⟨[]⟩ [OP_NIL] 1 2 3 0 1 2 [] []).chunk.code
        ⟨[.vnum 5], 1, 23, [], false, .vnil, []⟩ =
      { (⟨[.vnum 5], 1, 23, [], false, .vnil, []⟩ : VMState) with
        ip := (compileForWithContinue ⟨[]⟩ [OP_NIL] 1 2 3 0 1 2 [] []).loopStart } :=
  have h := C10_for_continue_targets_condition ⟨[]⟩ [OP_NIL] 1 2 3 0 1 2 [] []
    (by decide) (by decide)
  ⟨h.1, h.2.2.1, h.2.2.2 ⟨[.vnum 5], 1, 23, [], false, .vnil, []⟩ (by decide)⟩

/-- C8 counterexample: `"\/"` (the four bytes quote, backslash, slash,
quote) is whitespace-free valid JSON over the claimed value types, but the
parser maps the `\/` escape to a plain slash and the writer never emits
that escape, so `to_json(parse_json(s))` is `"/"`, not `s`. -/
theorem C8_roundtrip_counterexample :
    parseJSON ['"', '\\', '/', '"'] = GValue.vstr ['/'] ∧
    toJSONChars (parseJSON ['"', '\\', '/', '"']) = some ['"', '/', '"'] ∧
    ['"', '\\', '/', '"'] ≠ ['"', '/', '"'] :=
  ⟨rfl, rfl, by decide⟩

-- ---- JSON round-trip lemmas ----

theorem jsonSkipWs_not_ws {c : Char} (h : jsonIsWs c = false) (r : List Char) :
    jsonSkipWs (c :: r) = c :: r := by
  simp [jsonSkipWs, h]

theorem escOut_shape (c : Char) :
    (∃ d, jsonEscapeOut c = ['\\', d] ∧ jsonEscapeChar d = c) ∨
    (jsonEscapeOut c = [c] ∧ c ≠ '"' ∧ c ≠ '\\') := by
  unfold jsonEscapeOut
  by_cases h1 : c = '"'
  · subst h1; exact Or.inl ⟨'"', by simp [jsonEscapeChar], by decide⟩
  · by_cases h2 : c = '\\'
    · subst h2; exact Or.inl ⟨'\\', by simp [jsonEscapeChar], by decide⟩
    · by_cases h3 : c = Char.ofNat 8
      · subst h3; exact Or.inl ⟨'b', by simp [jsonEscapeChar], by decide⟩
      · by_cases h4 : c = Char.ofNat 12
        · subst h4; exact Or.inl ⟨'f', by simp [jsonEscapeChar], by decide⟩
        · by_cases h5 : c = Char.ofNat 10
          · subst h5; exact Or.inl ⟨'n', by simp [jsonEscapeChar], by decide⟩
          · by_cases h6 : c = Char.ofNat 13
            · subst h6; exact Or.inl ⟨'r', by simp [jsonEscapeChar], by decide⟩
            · by_cases h7 : c = Char.ofNat 9
              · subst h7; exact Or.inl ⟨'t', by simp [jsonEscapeChar], by decide⟩
              · right
                simp [h1, h2, h3, h4, h5, h6, h7]

theorem jsonScanString_escaped (s : GStr) (rest : List Char) :
    jsonScanString (s.flatMap jsonEscapeOut ++ '"' :: rest) =
      some (s.flatMap jsonEscapeOut, rest) := by
  induction s with
  | nil =>
    simp only [List.flatMap_nil, List.nil_append]
    rw [jsonScanString.eq_def]
    simp
  | cons c s ih =>
    rcases escOut_shape c with ⟨d, hd, _⟩ | ⟨hc, hq, hb⟩
    · simp only [List.flatMap_cons, hd, List.cons_append, List.append_assoc]
      rw [jsonScanString.eq_def]
      simp [ih]
    · simp only [List.flatMap_cons, hc, List.cons_append]
      rw [jsonScanString.eq_def]
      simp [hq, hb, ih]

theorem jsonUnescape_escaped (s : GStr) :
    jsonUnescape (s.flatMap jsonEscapeOut) = s := by
  induction s with
  | nil => rfl
  | cons c s ih =>
    rcases escOut_shape c with ⟨d, hd, hinv⟩ | ⟨hc, hq, hb⟩
    · simp only [List.flatMap_cons, hd, List.cons_append]
      rw [jsonUnescape.eq_def]
      simp [hinv, ih]
    · simp only [List.flatMap_cons, hc, List.cons_append]
      rw [jsonUnescape.eq_def]
      cases hfl : s.flatMap jsonEscapeOut with
      | nil => simp [hb, hfl ▸ ih]
      | cons x xs => simp [hb, hfl ▸ ih]

theorem jsonEscaped_no_backslash (s : GStr)
    (h : ('\\' ∈ s.flatMap jsonEscapeOut) = False) :
    s.flatMap jsonEscapeOut = s := by
  simp only [eq_iff_iff, iff_false] at h
  induction s with
  | nil => rfl
  | cons c s ih =>
    rcases escOut_shape c with ⟨d, hd, _⟩ | ⟨hc, _, _⟩
    · rw [List.flatMap_cons, hd] at h
      simp at h
    · rw [List.flatMap_cons, hc] at h ⊢
      simp only [List.cons_append, List.mem_cons, not_or] at h
      have := ih (by simpa using h.2)
      simp [this]

theorem jsonParseStr_written (s : GStr) (rest : List Char) :
    jsonParseStr (jsonWriteStringChars s ++ rest) = some (s, rest) := by
  unfold jsonWriteStringChars jsonParseStr
  simp only [List.cons_append, List.append_assoc, List.cons_append]
  rw [jsonScanString_escaped]
  simp only [Option.map_some']
  by_cases h : '\\' ∈ s.flatMap jsonEscapeOut
  · have hc : (s.flatMap jsonEscapeOut).contains '\\' = true := List.elem_iff.mpr h
    rw [if_pos hc, jsonUnescape_escaped]
    simp
  · have hc : ¬ (s.flatMap jsonEscapeOut).contains '\\' = true := by
      intro hcontra
      exact h (List.elem_iff.mp hcontra)
    have hne := jsonEscaped_no_backslash s (by simp [h])
    rw [if_neg hc, hne]
    simp

theorem digitsToNat_append (ds : List Char) (c : Char) :
    digitsToNat (ds ++ [c]) = 10 * digitsToNat ds + (c.toNat - 48) := by
  unfold digitsToNat
  rw [List.foldl_append]
  simp [Nat.mul_comm]

theorem natToCharsF_spec : ∀ f n, n < f →
    natToCharsF f n ≠ [] ∧ (∀ c ∈ natToCharsF f n, c.isDigit = true) ∧
    digitsToNat (natToCharsF f n) = n := by
  intro f
  induction f with
  | zero => intro n hn; omega
  | succ f ih =>
    intro n hn
    by_cases h10 : n < 10
    · rw [natToCharsF, if_pos h10]
      refine ⟨by simp, ?_, ?_⟩
      · intro c hc
        simp at hc
        subst hc
        interval_cases n <;> decide
      · show digitsToNat ([] ++ [Char.ofNat (48 + n)]) = n
        rw [digitsToNat_append]
        have : (Char.ofNat (48 + n)).toNat = 48 + n := by interval_cases n <;> decide
        simp [digitsToNat, this]
    · rw [natToCharsF, if_neg h10]
      have hdiv : n / 10 < f := by omega
      obtain ⟨hne, hdig, hval⟩ := ih (n / 10) hdiv
      have hlast : (Char.ofNat (48 + n % 10)).toNat = 48 + n % 10 := by
        have : n % 10 < 10 := Nat.mod_lt _ (by omega)
        interval_cases h : n % 10 <;> decide
      refine ⟨by simp, ?_, ?_⟩
      · intro c hc
        rcases List.mem_append.mp hc with hc | hc
        · exact hdig c hc
        · simp at hc
          subst hc
          have : n % 10 < 10 := Nat.mod_lt _ (by omega)
          interval_cases h : n % 10 <;> decide
      · rw [digitsToNat_append, hval, hlast]
        omega

theorem natToCharsF_length : ∀ f n k, n < f → n < 10 ^ k → 1 ≤ k →
    (natToCharsF f n).length ≤ k := by
  intro f
  induction f with
  | zero => intro n k hn; omega
  | succ f ih =>
    intro n k hn hpow hk
    by_cases h10 : n < 10
    · rw [natToCharsF, if_pos h10]
      simpa using hk
    · rw [natToCharsF, if_neg h10]
      have hk2 : 2 ≤ k := by
        by_contra hlt
        have hk1 : k = 1 := by omega
        rw [hk1] at hpow
        simp at hpow
        omega
      have hdivpow : n / 10 < 10 ^ (k - 1) := by
        apply Nat.div_lt_of_lt_mul
        have : 10 ^ (k - 1) * 10 = 10 ^ k := by
          rw [← pow_succ]
          congr 1
          omega
        omega
      have := ih (n / 10) (k - 1) (by omega) hdivpow (by omega)
      simp
      omega

theorem natToChars_spec (n : Nat) :
    natToChars n ≠ [] ∧ (∀ c ∈ natToChars n, c.isDigit = true) ∧
    digitsToNat (natToChars n) = n :=
  natToCharsF_spec (n + 1) n (by omega)

theorem span_digits_append (ds rest : List Char) (hds : ∀ c ∈ ds, c.isDigit = true)
    (hrest : ∀ c, rest.head? = some c → c.isDigit = false) :
    (ds ++ rest).span Char.isDigit = (ds, rest) := by
  induction ds with
  | nil =>
    cases rest with
    | nil => rfl
    | cons c r =>
      have := hrest c rfl
      simp [List.span, List.span.loop, this]
  | cons d ds ih =>
    have hd := hds d (by simp)
    have ihres := ih (fun c hc => hds c (by simp [hc])) 
    simp only [List.cons_append]
    rw [List.span_eq_take_drop] at ihres ⊢
    simp only [List.takeWhile_cons, List.dropWhile_cons, hd]
    simp only [Prod.mk.injEq] at ihres ⊢
    exact ⟨by simp [ihres.1], by simp [ihres.2]⟩


theorem jsonSep_facts {rest : List Char} (h : jsonSep rest) :
    ∀ c, rest.head? = some c →
      c.isDigit = false ∧ c ≠ '.' ∧ c ≠ 'e' ∧ c ≠ 'E' := by
  intro c hc
  rcases h c hc with h1 | h1 | h1 <;> subst h1 <;> exact ⟨by decide, by decide, by decide, by decide⟩

theorem isDigit_not_ws (c : Char) (h : c.isDigit = true) : jsonIsWs c = false := by
  have h1 : c ≠ ' ' := by intro he; rw [he] at h; exact absurd h (by decide)
  have h2 : c ≠ '\t' := by intro he; rw [he] at h; exact absurd h (by decide)
  have h3 : c ≠ '\r' := by intro he; rw [he] at h; exact absurd h (by decide)
  have h4 : c ≠ '\n' := by intro he; rw [he] at h; exact absurd h (by decide)
  rw [jsonIsWs]
  simp [h1, h2, h3, h4]

theorem isDigit_ne (c : Char) (h : c.isDigit = true) :
    c ≠ '"' ∧ c ≠ '-' ∧ c ≠ '[' ∧ c ≠ '{' ∧ c ≠ ']' ∧ c ≠ '}' ∧ c ≠ ',' ∧ c ≠ ':' ∧
    jsonIsWs c = false ∧ c ≠ '.' ∧ c ≠ 'e' ∧ c ≠ 'E' := by
  refine ⟨?_, ?_, ?_, ?_, ?_, ?_, ?_, ?_, isDigit_not_ws c h, ?_, ?_, ?_⟩ <;>
    (intro heq; rw [heq] at h; exact absurd h (by decide))

theorem jsonScanNumber_digits (ds rest : List Char) (hne : ds ≠ [])
    (hds : ∀ c ∈ ds, c.isDigit = true) (hsep : jsonSep rest) :
    jsonScanNumber (ds ++ rest) = (ds, rest) := by
  have hrestd : ∀ c, rest.head? = some c → c.isDigit = false :=
    fun c hc => (jsonSep_facts hsep c hc).1
  cases hds0 : ds with
  | nil => exact absurd hds0 hne
  | cons c cs =>
  subst hds0
  have hcd := hds c (by simp)
  have hspan := span_digits_append (c :: cs) rest hds hrestd
  unfold jsonScanNumber
  split
  · rename_i r heq
    rw [List.cons_append] at heq
    injection heq with h1 _
    exact absurd h1 (isDigit_ne c hcd).2.1
  · simp only [List.cons_append] at hspan ⊢
    rw [hspan]
    simp only []
    split
    · exact absurd rfl (jsonSep_facts hsep '.' rfl).2.1
    · simp only []
      split
      · rename_i ch rst hA hB
        have hf := jsonSep_facts hsep ch rfl
        rw [if_neg (by simp [hf.2.2.1, hf.2.2.2])]
        simp
      · simp

theorem ratOfNumToken_digits (ds : List Char) (hne : ds ≠ [])
    (hds : ∀ c ∈ ds, c.isDigit = true) :
    ratOfNumToken ds = (digitsToNat ds : ℚ) ∧
    ratOfNumToken ('-' :: ds) = -(digitsToNat ds : ℚ) := by
  have hspan := span_digits_append ds [] hds (by intro c hc; cases hc)
  rw [List.append_nil] at hspan
  cases hds0 : ds with
  | nil => exact absurd hds0 hne
  | cons c cs =>
  subst hds0
  have hcd := hds c (by simp)
  constructor
  · unfold ratOfNumToken
    split
    · rename_i r heq
      injection heq with h1 _
      exact absurd h1 (isDigit_ne c hcd).2.1
    · simp only [hspan]
      simp [digitsToNat]
  · unfold ratOfNumToken
    split
    · rename_i r heq
      injection heq with _ h2
      subst h2
      simp only [hspan]
      simp [digitsToNat]
    · rename_i hno
      exact (hno (c :: cs) rfl).elim

theorem jsonScanNumber_negDigits (ds rest : List Char) (hne : ds ≠ [])
    (hds : ∀ c ∈ ds, c.isDigit = true) (hsep : jsonSep rest) :
    jsonScanNumber (('-' :: ds) ++ rest) = ('-' :: ds, rest) := by
  have hrestd : ∀ c, rest.head? = some c → c.isDigit = false :=
    fun c hc => (jsonSep_facts hsep c hc).1
  cases hds0 : ds with
  | nil => exact absurd hds0 hne
  | cons c cs =>
  subst hds0
  have hspan := span_digits_append (c :: cs) rest hds hrestd
  unfold jsonScanNumber
  split
  · rename_i s r heq
    injection heq with h1 h2
    subst h2
    simp only [List.cons_append] at hspan
    simp only [List.append_eq, List.cons_append]
    rw [hspan]
    simp only []
    split
    · exact absurd rfl (jsonSep_facts hsep '.' rfl).2.1
    · simp only []
      split
      · rename_i ch rst hA hB
        have hf := jsonSep_facts hsep rst rfl
        rw [if_neg (by simp [hf.2.2.1, hf.2.2.2])]
        simp
      · simp
  · rename_i hno
    exact (hno (c :: cs ++ rest) (by simp)).elim

theorem jsonParseNumber_int (i : Int) (h1 : -(2 ^ 31) ≤ i) (h2 : i < 2 ^ 31)
    (rest : List Char) (hsep : jsonSep rest) :
    jsonParseNumber (intToChars i ++ rest) = (.vnum (i : ℚ), rest) := by
  have hlen10 : ∀ m : Nat, m ≤ 2147483648 → (natToChars m).length ≤ 10 := by
    intro m hm
    refine natToCharsF_length (m + 1) m 10 (by omega) ?_ (by omega)
    have hp : (10 : Nat) ^ 10 = 10000000000 := by norm_num
    omega
  have hpow : ((2 : Int) ^ 31) = 2147483648 := by norm_num
  rw [hpow] at h1 h2
  unfold jsonParseNumber
  by_cases hneg : i < 0
  · rw [intToChars, if_pos hneg]
    obtain ⟨hne, hdig, hval⟩ := natToChars_spec (-i).toNat
    rw [jsonScanNumber_negDigits _ _ hne hdig hsep]
    simp only []
    have hm : (-i).toNat ≤ 2147483648 := by omega
    have htake : ('-' :: natToChars (-i).toNat).take 63 = '-' :: natToChars (-i).toNat := by
      apply List.take_of_length_le
      have := hlen10 _ hm
      simp
      omega
    rw [htake]
    have hrat := (ratOfNumToken_digits (natToChars (-i).toNat) hne hdig).2
    rw [hrat, hval]
    have : (((-i).toNat : ℚ)) = -(i : ℚ) := by
      have h1 : (((-i).toNat : ℤ)) = -i := Int.toNat_of_nonneg (by omega)
      have h3 := congrArg (fun z : ℤ => (z : ℚ)) h1
      push_cast at h3
      exact h3
    rw [this]
    simp
  · rw [intToChars, if_neg hneg]
    obtain ⟨hne, hdig, hval⟩ := natToChars_spec i.toNat
    rw [jsonScanNumber_digits _ _ hne hdig hsep]
    simp only []
    have hm : i.toNat ≤ 2147483648 := by omega
    have htake : (natToChars i.toNat).take 63 = natToChars i.toNat := by
      apply List.take_of_length_le
      have := hlen10 _ hm
      omega
    rw [htake]
    have hrat := (ratOfNumToken_digits (natToChars i.toNat) hne hdig).1
    rw [hrat, hval]
    have : ((i.toNat : ℚ)) = (i : ℚ) := by
      have h1 : ((i.toNat : ℤ)) = i := Int.toNat_of_nonneg (by omega)
      have h3 := congrArg (fun z : ℤ => (z : ℚ)) h1
      push_cast at h3
      exact h3
    rw [this]

-- ---- C8: the writer's first byte and the parser's dispatch ----

theorem strLit_true : "true".toList = ['t', 'r', 'u', 'e'] := rfl

theorem strLit_false : "false".toList = ['f', 'a', 'l', 's', 'e'] := rfl

theorem strLit_null : "null".toList = ['n', 'u', 'l', 'l'] := rfl

/-- The first byte the writer emits is never whitespace and never a
separator or closer, whatever the value. -/
theorem jsonWrite_head (v : GValue) (out : List Char)
    (h : jsonWriteValue v = some out) :
    ∃ ch t, out = ch :: t ∧ jsonIsWs ch = false ∧
      ch ≠ ']' ∧ ch ≠ '}' ∧ ch ≠ ',' := by
  cases v with
  | vnil =>
    rw [jsonWriteValue, strLit_null] at h
    exact ⟨'n', _, (Option.some.inj h).symm, by decide, by decide, by decide, by decide⟩
  | vbool b =>
    rw [jsonWriteValue] at h
    cases b with
    | true =>
      rw [if_pos rfl, strLit_true] at h
      exact ⟨'t', _, (Option.some.inj h).symm, by decide, by decide, by decide, by decide⟩
    | false =>
      rw [if_neg (by decide), strLit_false] at h
      exact ⟨'f', _, (Option.some.inj h).symm, by decide, by decide, by decide, by decide⟩
  | vnum q =>
    rw [jsonWriteValue, jsonWriteNumber] at h
    split at h
    · have hout : out = intToChars q.num := (Option.some.inj h).symm
      subst hout
      rw [intToChars]
      by_cases hneg : q.num < 0
      · rw [if_pos hneg]
        exact ⟨'-', _, rfl, by decide, by decide, by decide, by decide⟩
      · rw [if_neg hneg]
        obtain ⟨hne, hdig, -⟩ := natToChars_spec q.num.toNat
        cases hl : natToChars q.num.toNat with
        | nil => exact absurd hl hne
        | cons c t =>
          have hcd : c.isDigit = true := hdig c (by rw [hl]; exact List.mem_cons_self _ _)
          obtain ⟨-, -, -, -, h5, h6, h7, -, h9, -⟩ := isDigit_ne c hcd
          exact ⟨c, t, rfl, h9, h5, h6, h7⟩
    · exact absurd h (by simp)
  | vstr st =>
    rw [jsonWriteValue, jsonWriteStringChars] at h
    exact ⟨'"', _, (Option.some.inj h).symm, by decide, by decide, by decide, by decide⟩
  | vlist items =>
    rw [jsonWriteValue] at h
    cases hi : jsonWriteItems items with
    | none => rw [hi] at h; exact absurd h (by simp)
    | some cs =>
      rw [hi] at h
      simp only [Option.map_some'] at h
      exact ⟨'[', _, (Option.some.inj h).symm, by decide, by decide, by decide, by decide⟩
  | vmap entries =>
    rw [jsonWriteValue] at h
    cases hi : jsonWriteMembers entries with
    | none => rw [hi] at h; exact absurd h (by simp)
    | some cs =>
      rw [hi] at h
      simp only [Option.map_some'] at h
      exact ⟨'{', _, (Option.some.inj h).symm, by decide, by decide, by decide, by decide⟩

theorem parseValueF_null (f : Nat) (rest : List Char) :
    jsonParseValueF (f + 1) ('n' :: 'u' :: 'l' :: 'l' :: rest) = some (.vnil, rest) := by
  simp [jsonParseValueF, jsonSkipWs, jsonIsWs, List.isPrefixOf, strLit_true,
    strLit_false, strLit_null]

theorem parseValueF_true (f : Nat) (rest : List Char) :
    jsonParseValueF (f + 1) ('t' :: 'r' :: 'u' :: 'e' :: rest) = some (.vbool true, rest) := by
  simp [jsonParseValueF, jsonSkipWs, jsonIsWs, List.isPrefixOf, strLit_true,
    strLit_false, strLit_null]

theorem parseValueF_false (f : Nat) (rest : List Char) :
    jsonParseValueF (f + 1) ('f' :: 'a' :: 'l' :: 's' :: 'e' :: rest) =
      some (.vbool false, rest) := by
  simp [jsonParseValueF, jsonSkipWs, jsonIsWs, List.isPrefixOf, strLit_true,
    strLit_false, strLit_null]

theorem parseValueF_quote (f : Nat) (s : List Char) :
    jsonParseValueF (f + 1) ('"' :: s) =
      (jsonParseStr ('"' :: s)).map (fun p => (.vstr p.1, p.2)) := by
  simp [jsonParseValueF, jsonSkipWs, jsonIsWs]

theorem parseValueF_lbrack (f : Nat) (s : List Char) :
    jsonParseValueF (f + 1) ('[' :: s) = jsonParseArrayF f s := by
  simp [jsonParseValueF, jsonSkipWs, jsonIsWs]

theorem parseValueF_lbrace (f : Nat) (s : List Char) :
    jsonParseValueF (f + 1) ('\x7b' :: s) = jsonParseObjectF f s := by
  simp [jsonParseValueF, jsonSkipWs, jsonIsWs]

theorem parseValueF_num (f : Nat) (c : Char) (s : List Char)
    (hch : c = '-' ∨ c.isDigit = true) :
    jsonParseValueF (f + 1) (c :: s) = some (jsonParseNumber (c :: s)) := by
  have hws : jsonIsWs c = false := by
    rcases hch with rfl | hd
    · decide
    · exact isDigit_not_ws c hd
  have hq : ¬(c = '"') := by
    rcases hch with rfl | hd
    · decide
    · exact (isDigit_ne c hd).1
  rw [jsonParseValueF]
  simp only [jsonSkipWs_not_ws hws]
  rcases hch with rfl | hd
  · rw [if_neg hq, if_pos (by simp)]
  · rw [if_neg hq, if_pos (by simp [hd])]


theorem jsonSep_cons {c : Char} (h : c = ',' ∨ c = ']' ∨ c = '\x7d')
    (r : List Char) : jsonSep (c :: r) := by
  intro d hd
  rw [List.head?_cons] at hd
  cases Option.some.inj hd
  exact h

theorem jsonSep_nil : jsonSep [] := by
  intro c hc
  simp at hc

theorem jsonWriteItemsTail_cons (w : GValue) (ws : List GValue) :
    jsonWriteItemsTail (w :: ws) =
      (jsonWriteItems (w :: ws)).map (fun r => ',' :: r) := by
  rw [jsonWriteItemsTail, jsonWriteItems]
  cases jsonWriteValue w <;> cases jsonWriteItemsTail ws <;> simp

theorem jsonWriteMembersTail_cons (k : GStr) (w : GValue)
    (ws : List (GStr × GValue)) :
    jsonWriteMembersTail ((k, w) :: ws) =
      (jsonWriteMembers ((k, w) :: ws)).map (fun r => ',' :: r) := by
  rw [jsonWriteMembersTail, jsonWriteMembers]
  cases jsonWriteValue w <;> cases jsonWriteMembersTail ws <;> simp

theorem tableSet_fresh (acc : Table) (k : GStr) (v : GValue)
    (h : k ∉ acc.map Prod.fst) :
    tableSet acc k v = acc ++ [(k, v)] := by
  induction acc with
  | nil => rfl
  | cons kv rest ih =>
    obtain ⟨k1, v1⟩ := kv
    simp only [List.map_cons, List.mem_cons] at h
    push_neg at h
    rw [tableSet, if_neg (fun he => h.1 he.symm), ih h.2]
    rfl

theorem parseItems_loop (rest : List Char) (hrest : jsonSep rest) :
    ∀ vs : List GValue, (∀ v ∈ vs, jRT v) → vs ≠ [] →
    ∀ cs, jsonWriteItems vs = some cs →
    ∀ f, jfuelItems vs ≤ f →
    ∀ acc, jsonParseItemsF f acc (cs ++ ']' :: rest) =
      some (.vlist (acc ++ vs), rest) := by
  intro vs
  induction vs with
  | nil => intro _ hne; exact absurd rfl hne
  | cons v vrest ihL =>
    intro hall _ cs hcs f hf acc
    rw [jsonWriteItems] at hcs
    cases hv : jsonWriteValue v with
    | none => rw [hv] at hcs; exact absurd hcs (by simp)
    | some c0 =>
    cases ht : jsonWriteItemsTail vrest with
    | none => rw [hv, ht] at hcs; exact absurd hcs (by simp)
    | some t0 =>
    rw [hv, ht] at hcs
    simp only [Option.bind_eq_bind, Option.some_bind] at hcs
    have hcs' : c0 ++ t0 = cs := Option.some.inj hcs
    subst hcs'
    obtain ⟨f1, rfl⟩ : ∃ f1, f = f1 + 1 := by
      rcases f with _ | f1
      · rw [jfuelItems] at hf; omega
      · exact ⟨f1, rfl⟩
    have hf' : 1 + jfuel v + jfuelItems vrest ≤ f1 + 1 := by
      rw [jfuelItems] at hf; exact hf
    obtain ⟨ch, ct, hc0, hws, -, -, -⟩ := jsonWrite_head v c0 hv
    have hRT := hall v (List.mem_cons_self _ _)
    cases vrest with
    | nil =>
      rw [jsonWriteItemsTail] at ht
      have ht0 : t0 = [] := (Option.some.inj ht).symm
      subst ht0
      rw [List.append_nil, jsonParseItemsF]
      have hsw : jsonSkipWs (c0 ++ ']' :: rest) = c0 ++ ']' :: rest := by
        rw [hc0, List.cons_append]
        exact jsonSkipWs_not_ws hws _
      rw [hsw]
      rw [hRT c0 hv f1 (by rw [jfuelItems] at hf'; omega) (']' :: rest)
        (jsonSep_cons (Or.inr (Or.inl rfl)) rest)]
      simp only []
      rw [jsonSkipWs_not_ws (by decide)]
      simp
    | cons w ws =>
      rw [jsonWriteItemsTail_cons] at ht
      cases hw2 : jsonWriteItems (w :: ws) with
      | none => rw [hw2] at ht; exact absurd ht (by simp)
      | some u =>
        rw [hw2] at ht
        simp only [Option.map_some'] at ht
        have ht0 : t0 = ',' :: u := (Option.some.inj ht).symm
        subst ht0
        have hshape : (c0 ++ ',' :: u) ++ ']' :: rest =
            c0 ++ ',' :: (u ++ ']' :: rest) := by simp
        rw [hshape, jsonParseItemsF]
        have hsw : jsonSkipWs (c0 ++ ',' :: (u ++ ']' :: rest)) =
            c0 ++ ',' :: (u ++ ']' :: rest) := by
          rw [hc0, List.cons_append]
          exact jsonSkipWs_not_ws hws _
        rw [hsw]
        rw [hRT c0 hv f1 (by omega) (',' :: (u ++ ']' :: rest))
          (jsonSep_cons (Or.inl rfl) _)]
        simp only []
        rw [jsonSkipWs_not_ws (by decide)]
        have hrec := ihL (fun x hx => hall x (List.mem_cons_of_mem _ hx))
          (by simp) u hw2 f1 (by omega) (acc ++ [v])
        simp only []
        rw [hrec]
        simp

theorem parseMembers_loop (rest : List Char) :
    ∀ es : List (GStr × GValue), (∀ kv ∈ es, jRT kv.2) → es ≠ [] →
    ∀ cs, jsonWriteMembers es = some cs →
    ∀ f, jfuelMembers es ≤ f →
    ∀ acc : Table, (acc.map Prod.fst ++ es.map Prod.fst).Nodup →
    jsonParseMembersF f acc (cs ++ '\x7d' :: rest) =
      some (.vmap (acc ++ es), rest) := by
  intro es
  induction es with
  | nil => intro _ hne; exact absurd rfl hne
  | cons kv erest ihL =>
    obtain ⟨k, v⟩ := kv
    intro hall _ cs hcs f hf acc hnd
    rw [jsonWriteMembers] at hcs
    cases hv : jsonWriteValue v with
    | none => rw [hv] at hcs; exact absurd hcs (by simp)
    | some c0 =>
    cases ht : jsonWriteMembersTail erest with
    | none => rw [hv, ht] at hcs; exact absurd hcs (by simp)
    | some t0 =>
    rw [hv, ht] at hcs
    simp only [Option.bind_eq_bind, Option.some_bind] at hcs
    have hcs' : jsonWriteStringChars k ++ ':' :: (c0 ++ t0) = cs :=
      Option.some.inj hcs
    subst hcs'
    obtain ⟨f1, rfl⟩ : ∃ f1, f = f1 + 1 := by
      rcases f with _ | f1
      · rw [jfuelMembers] at hf; omega
      · exact ⟨f1, rfl⟩
    have hf' : 1 + jfuel v + jfuelMembers erest ≤ f1 + 1 := by
      rw [jfuelMembers] at hf; exact hf
    obtain ⟨ch, ct, hc0, hws, -, -, -⟩ := jsonWrite_head v c0 hv
    have hRT : jRT v := hall (k, v) (List.mem_cons_self _ _)
    have hkacc : k ∉ acc.map Prod.fst := by
      rw [List.nodup_append] at hnd
      exact fun hmem =>
        hnd.2.2 hmem (List.mem_map_of_mem Prod.fst (List.mem_cons_self _ _))
    rw [jsonParseMembersF]
    have hshape : (jsonWriteStringChars k ++ ':' :: (c0 ++ t0)) ++ '\x7d' :: rest
        = jsonWriteStringChars k ++ (':' :: (c0 ++ (t0 ++ '\x7d' :: rest))) := by
      simp
    rw [hshape]
    have hsw : jsonSkipWs (jsonWriteStringChars k ++
          (':' :: (c0 ++ (t0 ++ '\x7d' :: rest)))) =
        jsonWriteStringChars k ++ (':' :: (c0 ++ (t0 ++ '\x7d' :: rest))) := by
      rw [jsonWriteStringChars, List.cons_append]
      exact jsonSkipWs_not_ws (by decide) _
    rw [hsw, jsonParseStr_written]
    simp only []
    rw [jsonSkipWs_not_ws (by decide)]
    have hsw2 : jsonSkipWs (c0 ++ (t0 ++ '\x7d' :: rest)) =
        c0 ++ (t0 ++ '\x7d' :: rest) := by
      rw [hc0, List.cons_append]
      exact jsonSkipWs_not_ws hws _
    cases erest with
    | nil =>
      rw [jsonWriteMembersTail] at ht
      have ht0 : t0 = [] := (Option.some.inj ht).symm
      subst ht0
      simp only [List.nil_append]
      simp only [List.nil_append] at hsw2
      rw [hsw2]
      rw [hRT c0 hv f1 (by omega) ('\x7d' :: rest)
        (jsonSep_cons (Or.inr (Or.inr rfl)) rest)]
      simp only []
      rw [jsonSkipWs_not_ws (by decide)]
      rw [tableSet_fresh acc k v hkacc]
      simp
    | cons kv2 erest2 =>
      rw [jsonWriteMembersTail_cons kv2.1 kv2.2] at ht
      cases hw2 : jsonWriteMembers (kv2 :: erest2) with
      | none =>
        rw [show (kv2.1, kv2.2) = kv2 from rfl, hw2] at ht
        exact absurd ht (by simp)
      | some u =>
        rw [show (kv2.1, kv2.2) = kv2 from rfl, hw2] at ht
        simp only [Option.map_some'] at ht
        have ht0 : t0 = ',' :: u := (Option.some.inj ht).symm
        subst ht0
        have hshape2 : (',' :: u) ++ '\x7d' :: rest =
            ',' :: (u ++ '\x7d' :: rest) := by simp
        rw [hshape2] at hsw2 ⊢
        simp only []
        rw [hsw2]
        rw [hRT c0 hv f1 (by omega) (',' :: (u ++ '\x7d' :: rest))
          (jsonSep_cons (Or.inl rfl) _)]
        simp only []
        rw [jsonSkipWs_not_ws (by decide)]
        rw [tableSet_fresh acc k v hkacc]
        have hnd' : ((acc ++ [(k, v)]).map Prod.fst ++
            (kv2 :: erest2).map Prod.fst).Nodup := by
          simp only [List.map_append, List.map_cons, List.map_nil,
            List.append_assoc, List.cons_append, List.nil_append,
            List.singleton_append] at hnd ⊢
          exact hnd
        have hrec := ihL (fun x hx => hall x (List.mem_cons_of_mem _ hx))
          (by simp) u hw2 f1 (by omega) (acc ++ [(k, v)]) hnd'
        simp only []
        rw [hrec]
        simp

/-- The parser recovers every serializer-canonical value from its written
text (with any canonical continuation and any adequate fuel). -/
theorem jsonParse_write (v : GValue) (hc : JCanon v) : jRT v := by
  induction hc with
  | nil =>
    intro out hout fuel hfuel rest hrest
    rw [jsonWriteValue] at hout
    have he : "null".toList = out := Option.some.inj hout
    subst he
    have hfu : (1 : Nat) ≤ fuel := hfuel
    obtain ⟨f, rfl⟩ : ∃ f, fuel = f + 1 := by
      rcases fuel with _ | f
      · omega
      · exact ⟨f, rfl⟩
    exact parseValueF_null f rest
  | bool b =>
    intro out hout fuel hfuel rest hrest
    have hfu : (1 : Nat) ≤ fuel := hfuel
    obtain ⟨f, rfl⟩ : ∃ f, fuel = f + 1 := by
      rcases fuel with _ | f
      · omega
      · exact ⟨f, rfl⟩
    cases b with
    | true =>
      rw [jsonWriteValue] at hout
      have he : "true".toList = out := Option.some.inj hout
      subst he
      exact parseValueF_true f rest
    | false =>
      rw [jsonWriteValue] at hout
      have he : "false".toList = out := Option.some.inj hout
      subst he
      exact parseValueF_false f rest
  | num n hn1 hn2 =>
    intro out hout fuel hfuel rest hrest
    have hfu : (1 : Nat) ≤ fuel := hfuel
    obtain ⟨f, rfl⟩ : ∃ f, fuel = f + 1 := by
      rcases fuel with _ | f
      · omega
      · exact ⟨f, rfl⟩
    rw [jsonWriteValue, jsonWriteNumber] at hout
    have hden : ((n : ℚ)).den = 1 := Rat.den_intCast n
    have hnum : ((n : ℚ)).num = n := Rat.num_intCast n
    rw [if_pos ⟨hden, by rw [hnum]; exact hn1, by rw [hnum]; exact hn2⟩] at hout
    have hout' : intToChars ((n : ℚ)).num = out := Option.some.inj hout
    rw [hnum] at hout'
    subst hout'
    have hp := jsonParseNumber_int n hn1 hn2 rest hrest
    by_cases hneg : n < 0
    · have he : intToChars n = '-' :: natToChars (-n).toNat := by
        rw [intToChars, if_pos hneg]
      rw [he] at hp ⊢
      rw [List.cons_append] at hp ⊢
      rw [parseValueF_num f '-' _ (Or.inl rfl), hp]
    · have he : intToChars n = natToChars n.toNat := by
        rw [intToChars, if_neg hneg]
      obtain ⟨hne, hdig, -⟩ := natToChars_spec n.toNat
      cases hl : natToChars n.toNat with
      | nil => exact absurd hl hne
      | cons c t =>
        have hcd : c.isDigit = true := hdig c (by rw [hl]; exact List.mem_cons_self _ _)
        rw [he, hl] at hp ⊢
        rw [List.cons_append] at hp ⊢
        rw [parseValueF_num f c _ (Or.inr hcd), hp]
  | str st =>
    intro out hout fuel hfuel rest hrest
    have hfu : (1 : Nat) ≤ fuel := hfuel
    obtain ⟨f, rfl⟩ : ∃ f, fuel = f + 1 := by
      rcases fuel with _ | f
      · omega
      · exact ⟨f, rfl⟩
    rw [jsonWriteValue] at hout
    have he : jsonWriteStringChars st = out := Option.some.inj hout
    subst he
    have hps := jsonParseStr_written st rest
    rw [jsonWriteStringChars] at hps ⊢
    rw [List.cons_append] at hps ⊢
    rw [parseValueF_quote, hps]
    simp
  | list hmem ih =>
    rename_i items
    intro out hout fuel hfuel rest hrest
    rw [jsonWriteValue] at hout
    cases hi : jsonWriteItems items with
    | none => rw [hi] at hout; exact absurd hout (by simp)
    | some cs =>
      rw [hi, Option.map_some'] at hout
      have he : '[' :: (cs ++ [']']) = out := Option.some.inj hout
      subst he
      have hfu : 2 + jfuelItems items ≤ fuel := hfuel
      obtain ⟨f, rfl⟩ : ∃ f, fuel = f + 1 := by
        rcases fuel with _ | f
        · omega
        · exact ⟨f, rfl⟩
      rw [List.cons_append, parseValueF_lbrack]
      have hsh : (cs ++ [']']) ++ rest = cs ++ ']' :: rest := by simp
      rw [hsh]
      obtain ⟨f1, rfl⟩ : ∃ f1, f = f1 + 1 := by
        rcases f with _ | f1
        · omega
        · exact ⟨f1, rfl⟩
      cases items with
      | nil =>
        rw [jsonWriteItems] at hi
        have he2 : cs = [] := (Option.some.inj hi).symm
        subst he2
        rw [jsonParseArrayF]
        simp [jsonSkipWs, jsonIsWs]
      | cons v0 vtail =>
        have hloop := parseItems_loop rest hrest (v0 :: vtail) ih (by simp)
          cs hi f1 (by omega) []
        have hcsne : ∃ ch ct, cs = ch :: ct ∧ jsonIsWs ch = false ∧ ch ≠ ']' := by
          rw [jsonWriteItems] at hi
          cases hv0 : jsonWriteValue v0 with
          | none => rw [hv0] at hi; exact absurd hi (by simp)
          | some c0 =>
            cases ht0 : jsonWriteItemsTail vtail with
            | none => rw [hv0, ht0] at hi; exact absurd hi (by simp)
            | some t0 =>
              rw [hv0, ht0] at hi
              simp only [Option.bind_eq_bind, Option.some_bind] at hi
              have hcs0 : c0 ++ t0 = cs := Option.some.inj hi
              obtain ⟨ch, ct, hc0, hws, hne1, -, -⟩ := jsonWrite_head v0 c0 hv0
              exact ⟨ch, ct ++ t0, by rw [← hcs0, hc0]; simp, hws, hne1⟩
        obtain ⟨ch, ct, hcs0, hws, hne1⟩ := hcsne
        rw [jsonParseArrayF]
        have hsw : jsonSkipWs (cs ++ ']' :: rest) = cs ++ ']' :: rest := by
          rw [hcs0, List.cons_append]
          exact jsonSkipWs_not_ws hws _
        rw [hsw]
        split
        · rename_i r heq
          rw [hcs0, List.cons_append] at heq
          exact absurd (List.head_eq_of_cons_eq heq) hne1
        · simpa using hloop
  | map hmem hnd ih =>
    rename_i entries
    intro out hout fuel hfuel rest hrest
    rw [jsonWriteValue] at hout
    cases hi : jsonWriteMembers entries with
    | none => rw [hi] at hout; exact absurd hout (by simp)
    | some cs =>
      rw [hi, Option.map_some'] at hout
      have he : '\x7b' :: (cs ++ ['\x7d']) = out := Option.some.inj hout
      subst he
      have hfu : 2 + jfuelMembers entries ≤ fuel := hfuel
      obtain ⟨f, rfl⟩ : ∃ f, fuel = f + 1 := by
        rcases fuel with _ | f
        · omega
        · exact ⟨f, rfl⟩
      rw [List.cons_append, parseValueF_lbrace]
      have hsh : (cs ++ ['\x7d']) ++ rest = cs ++ '\x7d' :: rest := by simp
      rw [hsh]
      obtain ⟨f1, rfl⟩ : ∃ f1, f = f1 + 1 := by
        rcases f with _ | f1
        · omega
        · exact ⟨f1, rfl⟩
      cases entries with
      | nil =>
        rw [jsonWriteMembers] at hi
        have he2 : cs = [] := (Option.some.inj hi).symm
        subst he2
        rw [jsonParseObjectF]
        simp [jsonSkipWs, jsonIsWs]
      | cons kv0 etail =>
        have hloop := parseMembers_loop rest (kv0 :: etail) ih (by simp)
          cs hi f1 (by omega) [] (by rw [List.map_nil, List.nil_append]; exact hnd)
        have hcsne : ∃ ch ct, cs = ch :: ct ∧ jsonIsWs ch = false ∧ ch ≠ '\x7d' := by
          rw [jsonWriteMembers] at hi
          obtain ⟨k0, v0⟩ := kv0
          cases hv0 : jsonWriteValue v0 with
          | none => rw [hv0] at hi; exact absurd hi (by simp)
          | some c0 =>
            cases ht0 : jsonWriteMembersTail etail with
            | none => rw [hv0, ht0] at hi; exact absurd hi (by simp)
            | some t0 =>
              rw [hv0, ht0] at hi
              simp only [Option.bind_eq_bind, Option.some_bind] at hi
              have hcs0 : jsonWriteStringChars k0 ++ ':' :: (c0 ++ t0) = cs :=
                Option.some.inj hi
              refine ⟨'"', (k0.flatMap jsonEscapeOut ++ ['"']) ++ ':' :: (c0 ++ t0),
                ?_, by decide, by decide⟩
              rw [← hcs0, jsonWriteStringChars]
              simp
        obtain ⟨ch, ct, hcs0, hws, hne1⟩ := hcsne
        rw [jsonParseObjectF]
        have hsw : jsonSkipWs (cs ++ '\x7d' :: rest) = cs ++ '\x7d' :: rest := by
          rw [hcs0, List.cons_append]
          exact jsonSkipWs_not_ws hws _
        rw [hsw]
        split
        · rename_i r heq
          rw [hcs0, List.cons_append] at heq
          exact absurd (List.head_eq_of_cons_eq heq) hne1
        · simpa using hloop


theorem jfuelItemsTail_bound :
    ∀ vs : List GValue, (∀ v ∈ vs, jQ v) →
    ∀ t, jsonWriteItemsTail vs = some t → jfuelItems vs ≤ 3 * t.length + 1 := by
  intro vs
  induction vs with
  | nil =>
    intro _ t ht
    rw [jsonWriteItemsTail] at ht
    have : ([] : List Char) = t := Option.some.inj ht
    subst this
    rw [jfuelItems]
    simp
  | cons w ws ihT =>
    intro hall t ht
    rw [jsonWriteItemsTail] at ht
    cases hv : jsonWriteValue w with
    | none => rw [hv] at ht; exact absurd ht (by simp)
    | some cw =>
    cases htt : jsonWriteItemsTail ws with
    | none => rw [hv, htt] at ht; exact absurd ht (by simp)
    | some rws =>
    rw [hv, htt] at ht
    simp only [Option.bind_eq_bind, Option.some_bind] at ht
    have he : ',' :: (cw ++ rws) = t := Option.some.inj ht
    subst he
    have h1 := hall w (List.mem_cons_self _ _) cw hv
    have h2 := ihT (fun x hx => hall x (List.mem_cons_of_mem _ hx)) rws htt
    rw [jfuelItems]
    simp only [List.length_cons, List.length_append]
    omega

theorem jfuelItems_bound :
    ∀ vs : List GValue, (∀ v ∈ vs, jQ v) →
    ∀ cs, jsonWriteItems vs = some cs → jfuelItems vs ≤ 3 * cs.length + 1 := by
  intro vs hall cs hcs
  cases vs with
  | nil =>
    rw [jsonWriteItems] at hcs
    have : ([] : List Char) = cs := Option.some.inj hcs
    subst this
    rw [jfuelItems]
    simp
  | cons v vrest =>
    rw [jsonWriteItems] at hcs
    cases hv : jsonWriteValue v with
    | none => rw [hv] at hcs; exact absurd hcs (by simp)
    | some c0 =>
    cases ht : jsonWriteItemsTail vrest with
    | none => rw [hv, ht] at hcs; exact absurd hcs (by simp)
    | some t0 =>
    rw [hv, ht] at hcs
    simp only [Option.bind_eq_bind, Option.some_bind] at hcs
    have he : c0 ++ t0 = cs := Option.some.inj hcs
    subst he
    have h1 := hall v (List.mem_cons_self _ _) c0 hv
    have h2 := jfuelItemsTail_bound vrest
      (fun x hx => hall x (List.mem_cons_of_mem _ hx)) t0 ht
    rw [jfuelItems]
    simp only [List.length_append]
    omega

theorem jfuelMembersTail_bound :
    ∀ es : List (GStr × GValue), (∀ kv ∈ es, jQ kv.2) →
    ∀ t, jsonWriteMembersTail es = some t → jfuelMembers es ≤ 3 * t.length + 1 := by
  intro es
  induction es with
  | nil =>
    intro _ t ht
    rw [jsonWriteMembersTail] at ht
    have : ([] : List Char) = t := Option.some.inj ht
    subst this
    rw [jfuelMembers]
    simp
  | cons kv ws ihT =>
    obtain ⟨k, w⟩ := kv
    intro hall t ht
    rw [jsonWriteMembersTail] at ht
    cases hv : jsonWriteValue w with
    | none => rw [hv] at ht; exact absurd ht (by simp)
    | some cw =>
    cases htt : jsonWriteMembersTail ws with
    | none => rw [hv, htt] at ht; exact absurd ht (by simp)
    | some rws =>
    rw [hv, htt] at ht
    simp only [Option.bind_eq_bind, Option.some_bind] at ht
    have he : ',' :: (jsonWriteStringChars k ++ ':' :: (cw ++ rws)) = t :=
      Option.some.inj ht
    subst he
    have h1 : jfuel w + 1 ≤ 3 * cw.length :=
      hall (k, w) (List.mem_cons_self _ _) cw hv
    have h2 := ihT (fun x hx => hall x (List.mem_cons_of_mem _ hx)) rws htt
    rw [jfuelMembers]
    simp only [List.length_cons, List.length_append]
    omega

theorem jfuelMembers_bound :
    ∀ es : List (GStr × GValue), (∀ kv ∈ es, jQ kv.2) →
    ∀ cs, jsonWriteMembers es = some cs → jfuelMembers es ≤ 3 * cs.length + 1 := by
  intro es hall cs hcs
  cases es with
  | nil =>
    rw [jsonWriteMembers] at hcs
    have : ([] : List Char) = cs := Option.some.inj hcs
    subst this
    rw [jfuelMembers]
    simp
  | cons kv erest =>
    obtain ⟨k, v⟩ := kv
    rw [jsonWriteMembers] at hcs
    cases hv : jsonWriteValue v with
    | none => rw [hv] at hcs; exact absurd hcs (by simp)
    | some c0 =>
    cases ht : jsonWriteMembersTail erest with
    | none => rw [hv, ht] at hcs; exact absurd hcs (by simp)
    | some t0 =>
    rw [hv, ht] at hcs
    simp only [Option.bind_eq_bind, Option.some_bind] at hcs
    have he : jsonWriteStringChars k ++ ':' :: (c0 ++ t0) = cs := Option.some.inj hcs
    subst he
    have h1 : jfuel v + 1 ≤ 3 * c0.length :=
      hall (k, v) (List.mem_cons_self _ _) c0 hv
    have h2 := jfuelMembersTail_bound erest
      (fun x hx => hall x (List.mem_cons_of_mem _ hx)) t0 ht
    rw [jfuelMembers]
    simp only [List.length_append, List.length_cons]
    omega

/-- The fuel `parseJSON` passes (three times the input length plus one)
covers the canonical fuel of the written value. -/
theorem jfuel_write_bound (v : GValue) (hc : JCanon v) : jQ v := by
  induction hc with
  | nil =>
    intro out hout
    have he : "null".toList = out := Option.some.inj hout
    subst he
    decide
  | bool b =>
    intro out hout
    cases b with
    | true =>
      have he : "true".toList = out := Option.some.inj hout
      subst he
      decide
    | false =>
      have he : "false".toList = out := Option.some.inj hout
      subst he
      decide
  | num n hn1 hn2 =>
    intro out hout
    rw [jsonWriteValue, jsonWriteNumber] at hout
    split at hout
    · have he : intToChars ((n : ℚ)).num = out := Option.some.inj hout
      have hne : out ≠ [] := by
        rw [← he, intToChars]
        split
        · simp
        · exact (natToChars_spec _).1
      have hlen : 1 ≤ out.length := List.length_pos.mpr hne
      have hjf : jfuel (.vnum ((n : Int) : ℚ)) = 1 := rfl
      omega
    · exact absurd hout (by simp)
  | str st =>
    intro out hout
    have he : jsonWriteStringChars st = out := Option.some.inj hout
    subst he
    rw [jsonWriteStringChars]
    have hjf : jfuel (.vstr st) = 1 := rfl
    simp only [List.length_cons, List.length_append, hjf]
    omega
  | list hmem ih =>
    rename_i items
    intro out hout
    rw [jsonWriteValue] at hout
    cases hi : jsonWriteItems items with
    | none => rw [hi] at hout; exact absurd hout (by simp)
    | some cs =>
      rw [hi, Option.map_some'] at hout
      have he : '[' :: (cs ++ [']']) = out := Option.some.inj hout
      subst he
      have hb := jfuelItems_bound items ih cs hi
      have hjf : jfuel (.vlist items) = 2 + jfuelItems items := rfl
      simp only [List.length_cons, List.length_append, List.length_singleton, hjf]
      omega
  | map hmem hnd ih =>
    rename_i entries
    intro out hout
    rw [jsonWriteValue] at hout
    cases hi : jsonWriteMembers entries with
    | none => rw [hi] at hout; exact absurd hout (by simp)
    | some cs =>
      rw [hi, Option.map_some'] at hout
      have he : '\x7b' :: (cs ++ ['\x7d']) = out := Option.some.inj hout
      subst he
      have hb := jfuelMembers_bound entries ih cs hi
      have hjf : jfuel (.vmap entries) = 2 + jfuelMembers entries := rfl
      simp only [List.length_cons, List.length_append, List.length_singleton, hjf]
      omega

/-- C8 (amended): on the serializer-canonical fragment — null, booleans,
integer-valued numbers of magnitude below 2^31, arbitrary strings, lists
and maps of such values with distinct keys — `toJSON` followed by
`parseJSON` recovers the value, and re-serialising reproduces the same
canonical text byte for byte. -/
theorem C8_json_roundtrip_canonical (v : GValue) (s : List Char)
    (hc : JCanon v) (hw : toJSONChars v = some s) :
    parseJSON s = v ∧ toJSONChars (parseJSON s) = some s := by
  have hb := jfuel_write_bound v hc s hw
  have hRT := jsonParse_write v hc s hw (3 * s.length + 1) (by omega) [] jsonSep_nil
  rw [List.append_nil] at hRT
  have hp : parseJSON s = v := by
    rw [parseJSON, hRT]
  exact ⟨hp, by rw [hp]; exact hw⟩

/-- Closed witness for the amended C8 round trip on a concrete canonical
value exercising every branch class: nil, bool, string, number, list. -/
theorem C8_json_roundtrip_canonical_witness :
    parseJSON ("[null,true,\"hi\",12]".toList) =
        GValue.vlist [.vnil, .vbool true, .vstr ['h', 'i'], .vnum ((12 : Int) : ℚ)] ∧
    toJSONChars (parseJSON ("[null,true,\"hi\",12]".toList)) =
        some ("[null,true,\"hi\",12]".toList) :=
  C8_json_roundtrip_canonical
    (GValue.vlist [.vnil, .vbool true, .vstr ['h', 'i'], .vnum ((12 : Int) : ℚ)])
    ("[null,true,\"hi\",12]".toList)
    (by
      refine JCanon.list ?_
      intro v hv
      simp only [List.mem_cons, List.not_mem_nil, or_false] at hv
      rcases hv with rfl | rfl | rfl | rfl
      · exact JCanon.nil
      · exact JCanon.bool true
      · exact JCanon.str _
      · exact JCanon.num 12 (by norm_num) (by norm_num))
    (by rfl)

end Glipt
